import Mathlib

/-!
Verification of the button-press solver of `src/day10/main.py`.

The Python source is shallowly embedded: numpy integer arrays become
`List Nat` / `List (List Nat)`, the brute-force subset enumeration becomes a
fold over `List.range (2 ^ B)`, the in-memory result dictionary becomes an
association list with Python-dict insertion semantics, and the context-manager
enter/exit protocol becomes explicit functions over an optional backing-store
value.  External library steps (tabulate rendering, md5 digest, json codec)
are modelled where indicated by their doc comments.
-/

/-- Embedding of the `Schematic` dataclass: `lights` is the target light
vector (length `L`), `button_wiring` is the `L × B` wiring matrix stored as
rows, `joltage_requirements` is carried but unused by the solvers. -/
structure Schematic where
  lights : List Nat
  button_wiring : List (List Nat)
  joltage_requirements : List Int
deriving DecidableEq

/-- Number of buttons, i.e. `schematic.button_wiring.shape[1]`: the common
length of the wiring rows (read off the first row). -/
def n_buttons (s : Schematic) : Nat := (s.button_wiring.headD []).length

/-- Column `j` of the wiring matrix, i.e. `schematic.button_wiring[:, j]`. -/
def wiringColumn (s : Schematic) (j : Nat) : List Nat :=
  s.button_wiring.map (fun row => row.getD j 0)

/-- Well-formedness of the embedded numpy arrays: the wiring matrix has one
row per light and all rows have the common length `n_buttons`. -/
def WFSchematic (s : Schematic) : Prop :=
  s.button_wiring.length = s.lights.length ∧
  ∀ row ∈ s.button_wiring, row.length = n_buttons s

/-- Bit `j` of the subset index `i`, i.e. `int((i >> j) & 1)`. -/
def bitOf (i j : Nat) : Nat := (i >>> j) &&& 1

/-- The press vector of subset `i`: `[int((i >> j) & 1) for j in range(n_buttons)]`. -/
def pressList (i B : Nat) : List Nat := (List.range B).map (bitOf i)

/-- `sum(presses)`: the number of pressed buttons in subset `i`. -/
def pressWeight (i B : Nat) : Nat := (pressList i B).sum

/-- The light vector produced by pressing the buttons of subset `i`: starting
from `np.zeros_like(lights)`, xor in the wiring column of every pressed
button. -/
def resultingLights (s : Schematic) (i : Nat) : List Nat :=
  (List.range (n_buttons s)).foldl
    (fun acc j =>
      if bitOf i j = 1 then acc.zipWith (fun a b => a ^^^ b) (wiringColumn s j) else acc)
    (List.replicate s.lights.length 0)

/-- Embedding of `brute_force_solver`: fold the running minimum press count
(initialised to the sentinel `100000`) over all `2 ^ n_buttons` subsets,
keeping only subsets that reproduce the target lights, and return `-1` when
the sentinel survives. -/
def brute_force_solver (s : Schematic) : Int :=
  let B := n_buttons s
  let m := (List.range (2 ^ B)).foldl
    (fun acc i => if resultingLights s i = s.lights then min acc (pressWeight i B) else acc)
    100000
  if m ≠ 100000 then (m : Int) else -1

/-- Spec Example 2: two buttons with identical columns `[1,1]`, target `[1,1]`. -/
def sExample2 : Schematic :=
  { lights := [1, 1], button_wiring := [[1, 1], [1, 1]], joltage_requirements := [] }

/-- Spec Example 3: one button wired to light 0 only, target `[1,1]`. -/
def sExample3 : Schematic :=
  { lights := [1, 1], button_wiring := [[1], [0]], joltage_requirements := [] }

/-- A minimal solvable schematic: one light, one button wired to it. -/
def sTiny : Schematic :=
  { lights := [1], button_wiring := [[1]], joltage_requirements := [] }

theorem foldl_min_filter (P : Nat → Prop) [DecidablePred P] (w : Nat → Nat) :
    ∀ (l : List Nat) (a : Nat),
      l.foldl (fun acc i => if P i then min acc (w i) else acc) a
        = (l.filter (fun i => decide (P i))).foldl (fun acc i => min acc (w i)) a := by
  intro l
  induction l with
  | nil => intro a; rfl
  | cons x xs ih =>
    intro a
    by_cases hx : P x
    · simp only [List.foldl, List.filter, decide_eq_true hx, if_pos hx]
      exact ih _
    · simp only [List.foldl, List.filter, decide_eq_false hx, if_neg hx]
      exact ih _

theorem foldl_min_le_init (w : Nat → Nat) :
    ∀ (l : List Nat) (a : Nat), l.foldl (fun acc i => min acc (w i)) a ≤ a := by
  intro l
  induction l with
  | nil => intro a; exact Nat.le_refl a
  | cons x xs ih =>
    intro a
    exact Nat.le_trans (ih (min a (w x))) (Nat.min_le_left _ _)

theorem foldl_min_le_mem (w : Nat → Nat) :
    ∀ (l : List Nat) (a : Nat) (i : Nat), i ∈ l →
      l.foldl (fun acc i => min acc (w i)) a ≤ w i := by
  intro l
  induction l with
  | nil => intro a i h; exact absurd h (List.not_mem_nil i)
  | cons x xs ih =>
    intro a i h
    rcases List.mem_cons.mp h with h | h
    · subst h
      exact Nat.le_trans (foldl_min_le_init w xs (min a (w i))) (Nat.min_le_right _ _)
    · exact ih (min a (w x)) i h

theorem foldl_min_attained (w : Nat → Nat) :
    ∀ (l : List Nat) (a : Nat),
      l.foldl (fun acc i => min acc (w i)) a = a ∨
        ∃ i ∈ l, l.foldl (fun acc i => min acc (w i)) a = w i := by
  intro l
  induction l with
  | nil => intro a; exact Or.inl rfl
  | cons x xs ih =>
    intro a
    rcases ih (min a (w x)) with h | ⟨i, hi, h⟩
    · rcases Nat.le_total a (w x) with hle | hle
      · left; rw [List.foldl, h]; exact Nat.min_eq_left hle
      · right
        exact ⟨x, List.mem_cons_self x xs, by rw [List.foldl, h]; exact Nat.min_eq_right hle⟩
    · exact Or.inr ⟨i, List.mem_cons_of_mem x hi, h⟩

theorem foldl_min_const (w : Nat → Nat) :
    ∀ (l : List Nat) (a : Nat), (∀ i ∈ l, a ≤ w i) →
      l.foldl (fun acc i => min acc (w i)) a = a := by
  intro l
  induction l with
  | nil => intro a _; rfl
  | cons x xs ih =>
    intro a h
    have hx : min a (w x) = a := Nat.min_eq_left (h x (List.mem_cons_self x xs))
    rw [List.foldl, hx]
    exact ih a (fun i hi => h i (List.mem_cons_of_mem x hi))

theorem bitOf_le_one (i j : Nat) : bitOf i j ≤ 1 :=
  Nat.and_le_right

theorem pressWeight_le (i B : Nat) : pressWeight i B ≤ B := by
  induction B with
  | zero => simp [pressWeight, pressList]
  | succ n ih =>
    have : pressList i (n + 1) = pressList i n ++ [bitOf i n] := by
      simp [pressList, List.range_succ]
    calc (pressList i (n + 1)).sum = (pressList i n).sum + bitOf i n := by
          rw [this, List.sum_append, List.sum_cons, List.sum_nil, Nat.add_zero]
      _ ≤ n + 1 := Nat.add_le_add ih (bitOf_le_one i n)

/-- The internal fold of `brute_force_solver`, named for reasoning. -/
def bruteFold (s : Schematic) : Nat :=
  (List.range (2 ^ n_buttons s)).foldl
    (fun acc i =>
      if resultingLights s i = s.lights then min acc (pressWeight i (n_buttons s)) else acc)
    100000

theorem brute_force_solver_eq (s : Schematic) :
    brute_force_solver s = if bruteFold s ≠ 100000 then (bruteFold s : Int) else -1 := rfl

theorem bruteFold_eq_filter (s : Schematic) :
    bruteFold s =
      ((List.range (2 ^ n_buttons s)).filter
        (fun i => decide (resultingLights s i = s.lights))).foldl
        (fun acc i => min acc (pressWeight i (n_buttons s))) 100000 := by
  rw [bruteFold, foldl_min_filter (fun i => resultingLights s i = s.lights)]

theorem brute_force_sentinel (s : Schematic)
    (h : ∀ i, i < 2 ^ n_buttons s → resultingLights s i = s.lights →
      100000 ≤ pressWeight i (n_buttons s)) :
    brute_force_solver s = -1 := by
  have hfold : bruteFold s = 100000 := by
    rw [bruteFold_eq_filter]
    apply foldl_min_const
    intro i hi
    have hmem := List.mem_filter.mp hi
    exact h i (List.mem_range.mp hmem.1) (of_decide_eq_true hmem.2)
  rw [brute_force_solver_eq, hfold]
  simp

theorem brute_force_min (s : Schematic) (hB : n_buttons s < 100000)
    (hex : ∃ i, i < 2 ^ n_buttons s ∧ resultingLights s i = s.lights) :
    ∃ j, j < 2 ^ n_buttons s ∧ resultingLights s j = s.lights ∧
      brute_force_solver s = (pressWeight j (n_buttons s) : Int) ∧
      ∀ k, k < 2 ^ n_buttons s → resultingLights s k = s.lights →
        pressWeight j (n_buttons s) ≤ pressWeight k (n_buttons s) := by
  obtain ⟨i₀, hi₀, hm₀⟩ := hex
  have hmem : i₀ ∈ (List.range (2 ^ n_buttons s)).filter
      (fun i => decide (resultingLights s i = s.lights)) :=
    List.mem_filter.mpr ⟨List.mem_range.mpr hi₀, decide_eq_true hm₀⟩
  have hle : bruteFold s ≤ pressWeight i₀ (n_buttons s) := by
    rw [bruteFold_eq_filter]; exact foldl_min_le_mem _ _ _ _ hmem
  have hlt : bruteFold s < 100000 :=
    Nat.lt_of_le_of_lt hle (Nat.lt_of_le_of_lt (pressWeight_le i₀ _) hB)
  have hne : bruteFold s ≠ 100000 := Nat.ne_of_lt hlt
  have hval : brute_force_solver s = (bruteFold s : Int) := by
    rw [brute_force_solver_eq]; simp [hne]
  rcases foldl_min_attained (fun i => pressWeight i (n_buttons s)) _ 100000 with h | ⟨j, hj, h⟩
  · rw [← bruteFold_eq_filter] at h
    exact absurd h hne
  · rw [← bruteFold_eq_filter] at h
    have hjmem := List.mem_filter.mp hj
    refine ⟨j, List.mem_range.mp hjmem.1, of_decide_eq_true hjmem.2, by rw [hval, h], ?_⟩
    intro k hk hkm
    rw [← h, bruteFold_eq_filter]
    exact foldl_min_le_mem _ _ _ k
      (List.mem_filter.mpr ⟨List.mem_range.mpr hk, decide_eq_true hkm⟩)

theorem bitOf_zero (j : Nat) : bitOf 0 j = 0 := by
  simp [bitOf, Nat.zero_shiftRight]

theorem resultingLights_zero (s : Schematic) :
    resultingLights s 0 = List.replicate s.lights.length 0 := by
  rw [resultingLights]
  generalize List.range (n_buttons s) = l
  induction l with
  | nil => rfl
  | cons x xs ih => simp [List.foldl, bitOf_zero, ih]

theorem pressWeight_zero (B : Nat) : pressWeight 0 B = 0 := by
  apply List.sum_eq_zero
  intro x hx
  rcases List.mem_map.mp hx with ⟨j, _, hj⟩
  rw [← hj, bitOf_zero]

theorem brute_force_all_zero (s : Schematic) (h : ∀ x ∈ s.lights, x = 0) :
    brute_force_solver s = 0 := by
  have hrep : s.lights = List.replicate s.lights.length 0 :=
    List.eq_replicate_of_mem h
  have hmatch : resultingLights s 0 = s.lights := by
    rw [resultingLights_zero, ← hrep]
  have hmem : (0 : Nat) ∈ (List.range (2 ^ n_buttons s)).filter
      (fun i => decide (resultingLights s i = s.lights)) :=
    List.mem_filter.mpr
      ⟨List.mem_range.mpr (Nat.pos_pow_of_pos _ (by exact Nat.zero_lt_two)),
        decide_eq_true hmatch⟩
  have hle : bruteFold s ≤ pressWeight 0 (n_buttons s) := by
    rw [bruteFold_eq_filter]; exact foldl_min_le_mem _ _ _ _ hmem
  rw [pressWeight_zero] at hle
  have h0 : bruteFold s = 0 := Nat.le_zero.mp hle
  rw [brute_force_solver_eq, h0]
  simp

example : brute_force_solver sExample2 = 1 := by decide
example : brute_force_solver sExample3 = -1 := by decide
example : brute_force_solver sTiny = 1 := by decide

theorem getD_map_range {α : Type} (f : Nat → α) (n r : Nat) (h : r < n) (d : α) :
    ((List.range n).map f).getD r d = f r := by
  rw [List.getD_eq_getElem _ _ (by simpa using h)]
  simp

theorem getD_map {α β : Type} (f : α → β) (l : List α) (d : α) (d' : β) :
    ∀ r, r < l.length → (l.map f).getD r d' = f (l.getD r d) := by
  induction l with
  | nil => intro r h; exact absurd h (Nat.not_lt_zero r)
  | cons x xs ih =>
    intro r h
    cases r with
    | zero => rfl
    | succ m => exact ih m (Nat.lt_of_succ_lt_succ h)

theorem getD_zipWith_xor (as bs : List Nat) :
    ∀ r, r < as.length → r < bs.length →
      (List.zipWith (fun a b => a ^^^ b) as bs).getD r 0 = as.getD r 0 ^^^ bs.getD r 0 := by
  induction as generalizing bs with
  | nil => intro r h _; exact absurd h (Nat.not_lt_zero r)
  | cons a as ih =>
    intro r h1 h2
    cases bs with
    | nil => exact absurd h2 (Nat.not_lt_zero r)
    | cons b bs =>
      cases r with
      | zero => rfl
      | succ m =>
        exact ih bs m (Nat.lt_of_succ_lt_succ h1) (Nat.lt_of_succ_lt_succ h2)

theorem wiringColumn_length (s : Schematic) (j : Nat) :
    (wiringColumn s j).length = s.button_wiring.length := by
  simp [wiringColumn]

theorem wiringColumn_getD (s : Schematic) (j r : Nat) (h : r < s.button_wiring.length) :
    (wiringColumn s j).getD r 0 = (s.button_wiring.getD r []).getD j 0 := by
  rw [wiringColumn, getD_map (fun row => row.getD j 0) s.button_wiring [] 0 r h]

theorem resultingLights_length (s : Schematic) (hw : WFSchematic s) (i : Nat) :
    (resultingLights s i).length = s.lights.length := by
  rw [resultingLights]
  generalize List.range (n_buttons s) = l
  have base : (List.replicate s.lights.length (0 : Nat)).length = s.lights.length :=
    List.length_replicate _ _
  generalize List.replicate s.lights.length (0 : Nat) = acc at base ⊢
  induction l generalizing acc with
  | nil => exact base
  | cons j js ih =>
    by_cases hb : bitOf i j = 1
    · simp only [List.foldl, if_pos hb]
      apply ih
      rw [List.length_zipWith, wiringColumn_length, hw.1, base, Nat.min_self]
    · simp only [List.foldl, if_neg hb]
      exact ih acc base

theorem resultingLights_fold_aux (s : Schematic) (hw : WFSchematic s) (i r : Nat)
    (hr : r < s.lights.length) :
    ∀ (l : List Nat) (acc : List Nat), acc.length = s.lights.length →
      (l.foldl
        (fun acc j =>
          if bitOf i j = 1 then List.zipWith (fun a b => a ^^^ b) acc (wiringColumn s j)
          else acc) acc).getD r 0
      = l.foldl
          (fun a j => if bitOf i j = 1 then a ^^^ ((s.button_wiring.getD r []).getD j 0) else a)
          (acc.getD r 0) := by
  intro l
  induction l with
  | nil => intro acc _; rfl
  | cons j js ih =>
    intro acc base
    by_cases hb : bitOf i j = 1
    · simp only [List.foldl, if_pos hb]
      have hlen : (List.zipWith (fun a b => a ^^^ b) acc (wiringColumn s j)).length
          = s.lights.length := by
        rw [List.length_zipWith, wiringColumn_length, hw.1, base, Nat.min_self]
      rw [ih _ hlen]
      congr 1
      rw [getD_zipWith_xor acc (wiringColumn s j) r (by omega)
        (by rw [wiringColumn_length, hw.1]; exact hr)]
      rw [wiringColumn_getD s j r (by rw [hw.1]; exact hr)]
    · simp only [List.foldl, if_neg hb]
      exact ih acc base

theorem resultingLights_getD (s : Schematic) (hw : WFSchematic s) (i r : Nat)
    (hr : r < s.lights.length) :
    (resultingLights s i).getD r 0 =
      (List.range (n_buttons s)).foldl
        (fun a j => if bitOf i j = 1 then a ^^^ ((s.button_wiring.getD r []).getD j 0) else a)
        0 := by
  rw [resultingLights]
  have base0 : (List.replicate s.lights.length (0 : Nat)).getD r 0 = 0 := by
    rw [List.getD_eq_getElem _ _ (by simpa using hr)]
    simp
  rw [resultingLights_fold_aux s hw i r hr _ _ (List.length_replicate _ _), base0]

theorem bitOf_eq_mod (i j : Nat) : bitOf i j = i / 2 ^ j % 2 := by
  rw [bitOf, Nat.shiftRight_eq_div_pow, Nat.and_one_is_mod]

theorem bitOf_eq_one_iff_testBit (i j : Nat) : bitOf i j = 1 ↔ Nat.testBit i j = true := by
  rw [bitOf_eq_mod, Nat.testBit_to_div_mod, decide_eq_true_eq]

theorem bitOf_two_pow_sub_one (n r : Nat) (h : r < n) : bitOf (2 ^ n - 1) r = 1 := by
  rw [bitOf_eq_one_iff_testBit, Nat.testBit_two_pow_sub_one]
  exact decide_eq_true h

theorem foldl_congr_mem {α β : Type} (f g : α → β → α) :
    ∀ (l : List β) (a : α), (∀ j ∈ l, ∀ x, f x j = g x j) →
      l.foldl f a = l.foldl g a := by
  intro l
  induction l with
  | nil => intro a _; rfl
  | cons x xs ih =>
    intro a h
    simp only [List.foldl]
    rw [h x (List.mem_cons_self x xs) a]
    exact ih _ (fun j hj => h j (List.mem_cons_of_mem x hj))

/-- The `n × n` identity wiring matrix: button `j` toggles exactly light `j`. -/
def idWiring (n : Nat) : List (List Nat) :=
  (List.range n).map (fun r => (List.range n).map (fun j => if j = r then 1 else 0))

/-- A schematic with 100000 buttons whose unique solution presses all of them,
so the true minimum press count collides with the sentinel `100000`. -/
def sIdentityBig : Schematic :=
  { lights := List.replicate 100000 1, button_wiring := idWiring 100000,
    joltage_requirements := [] }

theorem headD_map_range {α : Type} (f : Nat → α) (n : Nat) (h : 0 < n) (d : α) :
    ((List.range n).map f).headD d = f 0 := by
  cases n with
  | zero => exact absurd h (Nat.lt_irrefl 0)
  | succ m => rw [List.range_succ_eq_map m]; rfl

theorem sIdentityBig_wiring : sIdentityBig.button_wiring = idWiring 100000 := by
  simp only [sIdentityBig]

theorem sIdentityBig_lights : sIdentityBig.lights = List.replicate 100000 1 := by
  simp only [sIdentityBig]

theorem n_buttons_sIdentityBig : n_buttons sIdentityBig = 100000 := by
  rw [n_buttons, sIdentityBig_wiring, idWiring, headD_map_range _ 100000 (by norm_num)]
  simp only [List.length_map, List.length_range]

theorem sIdentityBig_wf : WFSchematic sIdentityBig := by
  constructor
  · rw [sIdentityBig_wiring, sIdentityBig_lights, idWiring]
    simp only [List.length_map, List.length_range, List.length_replicate]
  · intro row hrow
    rw [n_buttons_sIdentityBig]
    rw [sIdentityBig_wiring, idWiring] at hrow
    rcases List.mem_map.mp hrow with ⟨r, _, hr⟩
    rw [← hr]
    simp only [List.length_map, List.length_range]

theorem foldId (i r : Nat) :
    ∀ (n : Nat) (a : Nat),
      (List.range n).foldl
        (fun a j => if bitOf i j = 1 then a ^^^ (if j = r then 1 else 0) else a) a
      = if r < n ∧ bitOf i r = 1 then a ^^^ 1 else a := by
  intro n
  induction n with
  | zero => intro a; simp
  | succ m ih =>
    intro a
    rw [List.range_succ, List.foldl_append, ih a]
    rcases Nat.lt_trichotomy r m with hr | hr | hr
    · by_cases hbr : bitOf i r = 1
      · simp [List.foldl, show m ≠ r by omega, hr, hbr, Nat.lt_succ_of_lt hr]
      · simp [List.foldl, show m ≠ r by omega, hbr]
    · subst hr
      simp only [List.foldl, if_pos rfl]
      by_cases hbr : bitOf i r = 1
      · simp [hbr, Nat.lt_succ_self]
      · simp [hbr]
    · simp [List.foldl, show m ≠ r by omega, show ¬ r < m by omega,
        show ¬ r < m + 1 by omega]

theorem sIdentityBig_entry (i r : Nat) (hr : r < 100000) :
    (resultingLights sIdentityBig i).getD r 0 = bitOf i r := by
  have hlen : r < sIdentityBig.lights.length := by
    rw [sIdentityBig_lights, List.length_replicate]
    exact hr
  rw [resultingLights_getD sIdentityBig sIdentityBig_wf i r hlen]
  have hrow : sIdentityBig.button_wiring.getD r []
      = (List.range 100000).map (fun j => if j = r then 1 else 0) := by
    rw [sIdentityBig_wiring, idWiring, getD_map_range _ 100000 r hr]
  rw [hrow, n_buttons_sIdentityBig]
  rw [foldl_congr_mem _
    (fun a j => if bitOf i j = 1 then a ^^^ (if j = r then 1 else 0) else a) _ 0
    (by
      intro j hj x
      rw [getD_map_range _ 100000 j (List.mem_range.mp hj)])]
  rw [foldId i r 100000 0]
  rcases Nat.le_one_iff_eq_zero_or_eq_one.mp (bitOf_le_one i r) with hb | hb
  · simp [hb, hr]
  · simp [hb, hr]

theorem getD_replicate_one (n r : Nat) (h : r < n) :
    (List.replicate n (1 : Nat)).getD r 0 = 1 := by
  rw [List.getD_eq_getElem _ 0 (by rw [List.length_replicate]; exact h),
    List.getElem_replicate]

theorem sIdentityBig_match :
    resultingLights sIdentityBig (2 ^ 100000 - 1) = sIdentityBig.lights := by
  apply List.ext_getElem
  · rw [resultingLights_length sIdentityBig sIdentityBig_wf]
  · intro r h1 h2
    have hr : r < 100000 := by
      rw [sIdentityBig_lights, List.length_replicate] at h2
      exact h2
    rw [← List.getD_eq_getElem _ 0 h1, ← List.getD_eq_getElem _ 0 h2]
    rw [sIdentityBig_entry _ r hr, bitOf_two_pow_sub_one 100000 r hr, sIdentityBig_lights]
    rw [getD_replicate_one 100000 r hr]

theorem sum_map_one {α : Type} :
    ∀ l : List α, (l.map (fun _ => (1 : Nat))).sum = l.length := by
  intro l
  induction l with
  | nil => rfl
  | cons x xs ih => simp only [List.map, List.sum_cons, List.length_cons, ih, Nat.add_comm]

theorem sIdentityBig_match_weight (i : Nat)
    (hm : resultingLights sIdentityBig i = sIdentityBig.lights) :
    pressWeight i 100000 = 100000 := by
  have hbit : ∀ r, r < 100000 → bitOf i r = 1 := by
    intro r hr
    have h1 : (resultingLights sIdentityBig i).getD r 0
        = sIdentityBig.lights.getD r 0 := by rw [hm]
    rw [sIdentityBig_entry i r hr] at h1
    have h2 : sIdentityBig.lights.getD r 0 = 1 := by
      rw [sIdentityBig_lights, getD_replicate_one 100000 r hr]
    rw [h2] at h1
    exact h1
  have hcongr : pressList i 100000 = (List.range 100000).map (fun _ => 1) := by
    apply List.map_congr_left
    intro j hj
    exact hbit j (List.mem_range.mp hj)
  rw [pressWeight, hcongr, sum_map_one, List.length_range]

/-- C1 counterexample: for the 100000-button identity schematic whose unique
solution presses every button, a matching subset exists (so the claimed
minimum population count is the natural number 100000), but
`brute_force_solver` returns `-1` because the minimum collides with the
sentinel `100000`. -/
theorem C1_counterexample :
    resultingLights sIdentityBig (2 ^ 100000 - 1) = sIdentityBig.lights ∧
    2 ^ 100000 - 1 < 2 ^ n_buttons sIdentityBig ∧
    pressWeight (2 ^ 100000 - 1) (n_buttons sIdentityBig) = 100000 ∧
    brute_force_solver sIdentityBig = -1 := by
  refine ⟨sIdentityBig_match, ?_, ?_, ?_⟩
  · rw [n_buttons_sIdentityBig]
    exact Nat.sub_lt (Nat.pos_pow_of_pos _ Nat.zero_lt_two) Nat.one_pos
  · rw [n_buttons_sIdentityBig]
    exact sIdentityBig_match_weight _ sIdentityBig_match
  · apply brute_force_sentinel
    intro i _ hm
    rw [n_buttons_sIdentityBig, sIdentityBig_match_weight i hm]

/-- C1 (amended): for every schematic with fewer than 100000 buttons,
`brute_force_solver` returns the minimum population count over all subsets
`i < 2 ^ B` whose xor of selected wiring columns equals the target light
vector; the empty subset is a valid candidate, so an all-zero target yields
`0`; and on spec Example 2 (columns `[1,1]`, `[1,1]`, target `[1,1]`) the
result is `1`, not `2`. -/
theorem C1_brute_force_minimality :
    (∀ s : Schematic, n_buttons s < 100000 →
      (∃ i, i < 2 ^ n_buttons s ∧ resultingLights s i = s.lights) →
      ∃ j, j < 2 ^ n_buttons s ∧ resultingLights s j = s.lights ∧
        brute_force_solver s = (pressWeight j (n_buttons s) : Int) ∧
        ∀ k, k < 2 ^ n_buttons s → resultingLights s k = s.lights →
          pressWeight j (n_buttons s) ≤ pressWeight k (n_buttons s)) ∧
    (∀ s : Schematic, (∀ x ∈ s.lights, x = 0) → brute_force_solver s = 0) ∧
    brute_force_solver sExample2 = 1 :=
  ⟨brute_force_min, brute_force_all_zero, by decide⟩

/-- C1 witness: the minimality statement instantiated on spec Example 2, with
every hypothesis discharged concretely. -/
theorem C1_witness :
    ∃ j, j < 2 ^ n_buttons sExample2 ∧ resultingLights sExample2 j = sExample2.lights ∧
      brute_force_solver sExample2 = (pressWeight j (n_buttons sExample2) : Int) ∧
      ∀ k, k < 2 ^ n_buttons sExample2 → resultingLights sExample2 k = sExample2.lights →
        pressWeight j (n_buttons sExample2) ≤ pressWeight k (n_buttons sExample2) :=
  C1_brute_force_minimality.1 sExample2 (by decide) ⟨1, by decide, by decide⟩

/-- C2 counterexample: on spec Example 3 (one button wired to light 0 only,
target `[1,1]`) no button subset reproduces the target, and
`brute_force_solver` — the only solver entry point in the code — returns the
sentinel `-1` rather than signalling a typed failure. -/
theorem C2_counterexample :
    resultingLights sExample3 0 ≠ sExample3.lights ∧
    resultingLights sExample3 1 ≠ sExample3.lights ∧
    brute_force_solver sExample3 = -1 := by decide

/-- C2 (amended): for every schematic for which no subset of the
`2 ^ B` button-press combinations reproduces the target light vector,
`brute_force_solver` returns the sentinel `-1` (it has no typed-failure
channel). -/
theorem C2_no_solution_sentinel (s : Schematic)
    (h : ∀ i, i < 2 ^ n_buttons s → resultingLights s i ≠ s.lights) :
    brute_force_solver s = -1 :=
  brute_force_sentinel s (fun i hi hm => absurd hm (h i hi))

/-- C2 witness: the amended statement instantiated on spec Example 3. -/
theorem C2_witness : brute_force_solver sExample3 = -1 :=
  C2_no_solution_sentinel sExample3 (by decide)

/-- Embedding of `Schematic.matrix_representation`: the `L × (B+1)` matrix
whose first column is the light vector and whose remaining columns are the
wiring matrix. -/
def matrix_representation (s : Schematic) : List (List Nat) :=
  List.zipWith (fun l row => l :: row) s.lights s.button_wiring

/-- Character rendering of one bit entry of the matrix. -/
def bitChar (n : Nat) : Char := if n = 1 then '1' else '0'

def encBits (l : List Nat) : List Char := l.map bitChar

/-- Rows rendered each with a leading row separator. -/
def encRows (rows : List (List Nat)) : List Char :=
  rows.foldr (fun row acc => '/' :: (encBits row ++ acc)) []

/-- Modelled from the spec: `Schematic.__str__` renders the matrix
representation as a table through the external `tabulate` library and appends
the joltage line; the spec treats this as a "canonical textual rendering of
the Schematic (light vector + wiring matrix layout + joltage vector)".  The
table step is modelled by a canonical character encoding of the matrix rows
followed by the rendered joltage list. -/
def schematic_str (s : Schematic) : String :=
  String.mk (encRows (matrix_representation s) ++ '!' :: (toString s.joltage_requirements).data)

/-- Modelled from the spec: the cache key is the md5 hexdigest of the
rendered schematic (`hashlib` is an external library).  Per the spec the
digest is a deterministic content digest for which "two differing schematics
never collide in practice", so it is modelled as the canonical rendering
itself composed with an arbitrary injective digest in the theorems below. -/
def fingerprint (s : Schematic) : String := schematic_str s

def isBitChar (c : Char) : Bool := c = '0' || c = '1'

/-- Inverse of `encBits`: greedily read bit characters. -/
def decodeBits : List Char → List Nat × List Char
  | [] => ([], [])
  | c :: cs =>
    if c = '1' then
      let p := decodeBits cs
      (1 :: p.1, p.2)
    else if c = '0' then
      let p := decodeBits cs
      (0 :: p.1, p.2)
    else ([], c :: cs)

theorem decodeBits_length_le : ∀ cs : List Char, (decodeBits cs).2.length ≤ cs.length := by
  intro cs
  induction cs with
  | nil => exact Nat.le_refl 0
  | cons c cs ih =>
    by_cases h1 : c = '1'
    · simp only [decodeBits, if_pos h1]
      exact Nat.le_succ_of_le ih
    · by_cases h0 : c = '0'
      · simp only [decodeBits, if_neg h1, if_pos h0]
        exact Nat.le_succ_of_le ih
      · simp only [decodeBits, if_neg h1, if_neg h0]
        exact Nat.le_refl _

/-- Inverse of `encRows`: read a sequence of separator-prefixed bit rows. -/
def decRows : List Char → List (List Nat) × List Char
  | [] => ([], [])
  | c :: rest =>
    if c = '/' then
      let p := decodeBits rest
      let q := decRows p.2
      (p.1 :: q.1, q.2)
    else ([], c :: rest)
termination_by cs => cs.length
decreasing_by
  simp only [List.length_cons]
  exact Nat.lt_succ_of_le (decodeBits_length_le _)

theorem decRows_nil : decRows [] = ([], []) := by
  rw [decRows]

theorem decRows_cons (c : Char) (rest : List Char) :
    decRows (c :: rest) =
      if c = '/' then
        ((decodeBits rest).1 :: (decRows (decodeBits rest).2).1,
          (decRows (decodeBits rest).2).2)
      else ([], c :: rest) := by
  rw [decRows]

/-- A character list without a leading bit character. -/
def NoBitHead : List Char → Prop
  | [] => True
  | c :: _ => isBitChar c = false

/-- A character list without a leading row separator. -/
def NoSlashHead : List Char → Prop
  | [] => True
  | c :: _ => c ≠ '/'

theorem decodeBits_encBits :
    ∀ (l : List Nat) (rest : List Char), (∀ x ∈ l, x = 0 ∨ x = 1) → NoBitHead rest →
      decodeBits (encBits l ++ rest) = (l, rest) := by
  intro l
  induction l with
  | nil =>
    intro rest _ hrest
    cases rest with
    | nil => rfl
    | cons c cs =>
      have hc : isBitChar c = false := hrest
      have h1 : ¬ c = '1' := by
        intro h; rw [h] at hc; exact absurd hc (by decide)
      have h0 : ¬ c = '0' := by
        intro h; rw [h] at hc; exact absurd hc (by decide)
      show decodeBits (c :: cs) = ([], c :: cs)
      simp only [decodeBits, if_neg h1, if_neg h0]
  | cons x xs ih =>
    intro rest hx hrest
    have hxs : ∀ y ∈ xs, y = 0 ∨ y = 1 := fun y hy => hx y (List.mem_cons_of_mem x hy)
    rcases hx x (List.mem_cons_self x xs) with h | h
    · subst h
      show decodeBits ('0' :: (encBits xs ++ rest)) = (0 :: xs, rest)
      simp only [decodeBits, if_neg (show ¬ ('0' : Char) = '1' by decide), if_pos rfl]
      rw [ih rest hxs hrest]
      simp
    · subst h
      show decodeBits ('1' :: (encBits xs ++ rest)) = (1 :: xs, rest)
      simp only [decodeBits, if_pos rfl]
      rw [ih rest hxs hrest]
      simp

theorem encRows_cons (row : List Nat) (rows : List (List Nat)) :
    encRows (row :: rows) = '/' :: (encBits row ++ encRows rows) := rfl

theorem decRows_encRows :
    ∀ (rows : List (List Nat)) (rest : List Char),
      (∀ row ∈ rows, ∀ x ∈ row, x = 0 ∨ x = 1) → NoBitHead rest → NoSlashHead rest →
      decRows (encRows rows ++ rest) = (rows, rest) := by
  intro rows
  induction rows with
  | nil =>
    intro rest _ _ hslash
    cases rest with
    | nil => exact decRows_nil
    | cons c cs =>
      have hc : c ≠ '/' := hslash
      show decRows (c :: cs) = ([], c :: cs)
      rw [decRows_cons, if_neg hc]
  | cons row rows ih =>
    intro rest hbits hbit hslash
    rw [encRows_cons, List.cons_append, List.append_assoc, decRows_cons, if_pos rfl]
    have htail : NoBitHead (encRows rows ++ rest) := by
      cases rows with
      | nil => exact hbit
      | cons r rs => rw [encRows_cons]; exact (by decide : isBitChar '/' = false)
    rw [decodeBits_encBits row (encRows rows ++ rest)
      (hbits row (List.mem_cons_self row rows)) htail]
    rw [ih rest (fun r hr => hbits r (List.mem_cons_of_mem row hr)) hbit hslash]


theorem schematic_str_inj (s1 s2 : Schematic)
    (h1 : ∀ row ∈ matrix_representation s1, ∀ x ∈ row, x = 0 ∨ x = 1)
    (h2 : ∀ row ∈ matrix_representation s2, ∀ x ∈ row, x = 0 ∨ x = 1)
    (heq : schematic_str s1 = schematic_str s2) :
    matrix_representation s1 = matrix_representation s2 := by
  have hdata : encRows (matrix_representation s1)
        ++ '!' :: (toString s1.joltage_requirements).data
      = encRows (matrix_representation s2)
        ++ '!' :: (toString s2.joltage_requirements).data :=
    congrArg String.data heq
  have hd1 := decRows_encRows (matrix_representation s1)
    ('!' :: (toString s1.joltage_requirements).data) h1
    (by simp [NoBitHead, isBitChar]) (by simp [NoSlashHead])
  have hd2 := decRows_encRows (matrix_representation s2)
    ('!' :: (toString s2.joltage_requirements).data) h2
    (by simp [NoBitHead, isBitChar]) (by simp [NoSlashHead])
  have : (matrix_representation s1, '!' :: (toString s1.joltage_requirements).data)
      = (matrix_representation s2, '!' :: (toString s2.joltage_requirements).data) := by
    rw [← hd1, ← hd2, hdata]
  exact congrArg Prod.fst this

theorem getD_set_self (l : List Nat) (r v : Nat) (h : r < l.length) :
    (l.set r v).getD r 0 = v := by
  have hb : r < (l.set r v).length := by rw [List.length_set]; exact h
  rw [List.getD_eq_getElem _ 0 hb]
  exact List.getElem_set_self hb

theorem getD_set_self_rows (l : List (List Nat)) (r : Nat) (v : List Nat)
    (h : r < l.length) : (l.set r v).getD r [] = v := by
  have hb : r < (l.set r v).length := by rw [List.length_set]; exact h
  rw [List.getD_eq_getElem _ [] hb]
  exact List.getElem_set_self hb

theorem getD_mem (l : List Nat) (r : Nat) (h : r < l.length) : l.getD r 0 ∈ l := by
  rw [List.getD_eq_getElem _ 0 h]
  exact List.getElem_mem h

theorem getD_mem_rows (l : List (List Nat)) (r : Nat) (h : r < l.length) :
    l.getD r [] ∈ l := by
  rw [List.getD_eq_getElem _ [] h]
  exact List.getElem_mem h

theorem getD_zipWith_cons (as : List Nat) (bs : List (List Nat)) :
    ∀ r, r < as.length → r < bs.length →
      (List.zipWith (fun l row => l :: row) as bs).getD r [] =
        as.getD r 0 :: bs.getD r [] := by
  induction as generalizing bs with
  | nil => intro r h _; exact absurd h (Nat.not_lt_zero r)
  | cons a as ih =>
    intro r h1 h2
    cases bs with
    | nil => exact absurd h2 (Nat.not_lt_zero r)
    | cons b bs =>
      cases r with
      | zero => rfl
      | succ m => exact ih bs m (Nat.lt_of_succ_lt_succ h1) (Nat.lt_of_succ_lt_succ h2)

theorem zipWith_cons_mem :
    ∀ (as : List Nat) (bs : List (List Nat)) (row : List Nat),
      row ∈ List.zipWith (fun l r => l :: r) as bs →
      ∃ a ∈ as, ∃ b ∈ bs, row = a :: b := by
  intro as
  induction as with
  | nil => intro bs row h; exact absurd h (by simp)
  | cons a as ih =>
    intro bs row h
    cases bs with
    | nil => exact absurd h (by simp)
    | cons b bs =>
      rcases List.mem_cons.mp h with h | h
      · exact ⟨a, List.mem_cons_self a as, b, List.mem_cons_self b bs, h⟩
      · rcases ih bs row h with ⟨a', ha, b', hb, heq⟩
        exact ⟨a', List.mem_cons_of_mem a ha, b', List.mem_cons_of_mem b hb, heq⟩

/-- All entries of the schematic are bits, as the puzzle parser produces. -/
def SchematicBits (s : Schematic) : Prop :=
  (∀ x ∈ s.lights, x = 0 ∨ x = 1) ∧
  ∀ row ∈ s.button_wiring, ∀ x ∈ row, x = 0 ∨ x = 1

theorem matrix_representation_bits (s : Schematic) (h : SchematicBits s) :
    ∀ row ∈ matrix_representation s, ∀ x ∈ row, x = 0 ∨ x = 1 := by
  intro row hrow x hx
  rcases zipWith_cons_mem s.lights s.button_wiring row hrow with ⟨a, ha, b, hb, heq⟩
  subst heq
  rcases List.mem_cons.mp hx with hx | hx
  · subst hx; exact h.1 x ha
  · exact h.2 b hb x hx

/-- Flip bit `r` of the light vector (0 ↔ 1 on bit-valued entries). -/
def flipLightAt (s : Schematic) (r : Nat) : Schematic :=
  { s with lights := s.lights.set r (1 - s.lights.getD r 0) }

/-- Flip bit `(r, c)` of the wiring matrix (0 ↔ 1 on bit-valued entries). -/
def flipWiringAt (s : Schematic) (r c : Nat) : Schematic :=
  let row := s.button_wiring.getD r []
  { s with button_wiring := s.button_wiring.set r (row.set c (1 - row.getD c 0)) }

theorem sub_one_flip (v : Nat) (h : v = 0 ∨ v = 1) : 1 - v ≠ v ∧ (1 - v = 0 ∨ 1 - v = 1) := by
  rcases h with h | h <;> subst h <;> simp

theorem set_preserves_bits (l : List Nat) (r v : Nat)
    (hl : ∀ x ∈ l, x = 0 ∨ x = 1) (hv : v = 0 ∨ v = 1) :
    ∀ x ∈ l.set r v, x = 0 ∨ x = 1 := by
  intro x hx
  rcases List.mem_or_eq_of_mem_set hx with h | h
  · exact hl x h
  · subst h; exact hv

theorem flipLightAt_lights (s : Schematic) (r : Nat) :
    (flipLightAt s r).lights = s.lights.set r (1 - s.lights.getD r 0) := rfl

theorem flipLightAt_wiring (s : Schematic) (r : Nat) :
    (flipLightAt s r).button_wiring = s.button_wiring := rfl

theorem flipWiringAt_lights (s : Schematic) (r c : Nat) :
    (flipWiringAt s r c).lights = s.lights := rfl

theorem flipWiringAt_wiring (s : Schematic) (r c : Nat) :
    (flipWiringAt s r c).button_wiring =
      s.button_wiring.set r
        ((s.button_wiring.getD r []).set c (1 - (s.button_wiring.getD r []).getD c 0)) := rfl

instance (s : Schematic) : Decidable (WFSchematic s) := by
  unfold WFSchematic; exact inferInstance

instance (s : Schematic) : Decidable (SchematicBits s) := by
  unfold SchematicBits; exact inferInstance

/-- C8: the fingerprint is a deterministic function of the Schematic content
alone — equal `lights`, `wiring` and `joltage` content gives equal
fingerprints — and flipping any single bit of `lights` or of the wiring
matrix of a well-formed bit-valued schematic changes the fingerprint.
The md5 step is modelled per the spec as a collision-free content digest. -/
theorem C8_fingerprint_content :
    (∀ s1 s2 : Schematic,
      s1.lights = s2.lights → s1.button_wiring = s2.button_wiring →
      s1.joltage_requirements = s2.joltage_requirements →
      fingerprint s1 = fingerprint s2) ∧
    (∀ (s : Schematic) (r : Nat), WFSchematic s → SchematicBits s →
      r < s.lights.length → fingerprint (flipLightAt s r) ≠ fingerprint s) ∧
    (∀ (s : Schematic) (r c : Nat), WFSchematic s → SchematicBits s →
      r < s.button_wiring.length → c < n_buttons s →
      fingerprint (flipWiringAt s r c) ≠ fingerprint s) := by
  refine ⟨?_, ?_, ?_⟩
  · intro s1 s2 h1 h2 h3
    have hs : s1 = s2 := by
      cases s1; cases s2
      simp only at h1 h2 h3
      simp [h1, h2, h3]
    rw [hs]
  · intro s r hw hb hr heq
    have hv : s.lights.getD r 0 = 0 ∨ s.lights.getD r 0 = 1 :=
      hb.1 _ (getD_mem s.lights r hr)
    have hflip := sub_one_flip (s.lights.getD r 0) hv
    have hb1 : SchematicBits (flipLightAt s r) := by
      constructor
      · rw [flipLightAt_lights]
        exact set_preserves_bits s.lights r _ hb.1 hflip.2
      · rw [flipLightAt_wiring]
        exact hb.2
    have hmr := schematic_str_inj (flipLightAt s r) s
      (matrix_representation_bits _ hb1) (matrix_representation_bits _ hb) heq
    have hwlen : r < s.button_wiring.length := by rw [hw.1]; exact hr
    have hlen1 : r < (flipLightAt s r).lights.length := by
      rw [flipLightAt_lights, List.length_set]; exact hr
    have e1 : (matrix_representation (flipLightAt s r)).getD r []
        = (s.lights.set r (1 - s.lights.getD r 0)).getD r 0 :: s.button_wiring.getD r [] := by
      rw [matrix_representation, flipLightAt_wiring]
      have := getD_zipWith_cons (flipLightAt s r).lights s.button_wiring r hlen1 hwlen
      rw [flipLightAt_lights] at this
      exact this
    have e2 : (matrix_representation s).getD r []
        = s.lights.getD r 0 :: s.button_wiring.getD r [] :=
      getD_zipWith_cons s.lights s.button_wiring r hr hwlen
    rw [hmr, e2] at e1
    have hhead : s.lights.getD r 0 = (s.lights.set r (1 - s.lights.getD r 0)).getD r 0 :=
      (List.cons.injEq _ _ _ _).mp e1 |>.1
    rw [getD_set_self s.lights r _ hr] at hhead
    exact hflip.1 hhead.symm
  · intro s r c hw hb hr hc heq
    have hrow : s.button_wiring.getD r [] ∈ s.button_wiring := getD_mem_rows _ r hr
    have hrowlen : c < (s.button_wiring.getD r []).length := by
      rw [hw.2 _ hrow]; exact hc
    have hv : (s.button_wiring.getD r []).getD c 0 = 0 ∨
        (s.button_wiring.getD r []).getD c 0 = 1 :=
      hb.2 _ hrow _ (getD_mem _ c hrowlen)
    have hflip := sub_one_flip _ hv
    have hb1 : SchematicBits (flipWiringAt s r c) := by
      constructor
      · rw [flipWiringAt_lights]; exact hb.1
      · rw [flipWiringAt_wiring]
        intro row2 hrow2 x hx
        rcases List.mem_or_eq_of_mem_set hrow2 with h | h
        · exact hb.2 row2 h x hx
        · subst h
          exact set_preserves_bits _ c _ (hb.2 _ hrow) hflip.2 x hx
    have hmr := schematic_str_inj (flipWiringAt s r c) s
      (matrix_representation_bits _ hb1) (matrix_representation_bits _ hb) heq
    have hllen : r < s.lights.length := by rw [← hw.1]; exact hr
    have hwlen1 : r < (flipWiringAt s r c).button_wiring.length := by
      rw [flipWiringAt_wiring, List.length_set]; exact hr
    have e1 : (matrix_representation (flipWiringAt s r c)).getD r []
        = s.lights.getD r 0 ::
          (s.button_wiring.set r
            ((s.button_wiring.getD r []).set c
              (1 - (s.button_wiring.getD r []).getD c 0))).getD r [] := by
      rw [matrix_representation, flipWiringAt_lights]
      have := getD_zipWith_cons s.lights (flipWiringAt s r c).button_wiring r hllen hwlen1
      rw [flipWiringAt_wiring] at this
      exact this
    have e2 : (matrix_representation s).getD r []
        = s.lights.getD r 0 :: s.button_wiring.getD r [] :=
      getD_zipWith_cons s.lights s.button_wiring r hllen hr
    rw [hmr, e2] at e1
    have htail : s.button_wiring.getD r []
        = (s.button_wiring.set r
            ((s.button_wiring.getD r []).set c
              (1 - (s.button_wiring.getD r []).getD c 0))).getD r [] :=
      (List.cons.injEq _ _ _ _).mp e1 |>.2
    rw [getD_set_self_rows s.button_wiring r _ hr] at htail
    have hentry : (s.button_wiring.getD r []).getD c 0
        = ((s.button_wiring.getD r []).set c
            (1 - (s.button_wiring.getD r []).getD c 0)).getD c 0 := by
      rw [← htail]
    rw [getD_set_self _ c _ hrowlen] at hentry
    exact hflip.1 hentry.symm

/-- C8 witness: instantiated on the one-light, one-button schematic. -/
theorem C8_witness :
    fingerprint sTiny = fingerprint sTiny ∧
    fingerprint (flipLightAt sTiny 0) ≠ fingerprint sTiny ∧
    fingerprint (flipWiringAt sTiny 0 0) ≠ fingerprint sTiny :=
  ⟨C8_fingerprint_content.1 sTiny sTiny rfl rfl rfl,
    C8_fingerprint_content.2.1 sTiny 0 (by decide) (by decide) (by decide),
    C8_fingerprint_content.2.2 sTiny 0 0 (by decide) (by decide) (by decide) (by decide)⟩

/-- The in-memory `self.results` dictionary: an insertion-ordered association
list from fingerprint strings to press counts, with Python-dict semantics. -/
abbrev Cache := List (String × Int)

/-- `schematic_hash in self.results` followed by `self.results[schematic_hash]`. -/
def lookupCache (st : Cache) (k : String) : Option Int :=
  (st.find? (fun e => e.1 == k)).map (fun e => e.2)

/-- Python dict assignment `self.results[key] = value`: overwrite in place
when the key is present, otherwise append. -/
def insertCache (st : Cache) (k : String) (v : Int) : Cache :=
  if st.any (fun e => e.1 == k) then
    st.map (fun e => if e.1 == k then (k, v) else e)
  else st ++ [(k, v)]

def isWsChar (c : Char) : Bool := c = ' ' || c = '\n' || c = '\t' || c = '\r'

def skipWs (cs : List Char) : List Char := cs.dropWhile isWsChar

def digitChar (d : Nat) : Char := Char.ofNat (48 + d)

def isDigitChar (c : Char) : Bool := 48 ≤ c.toNat && c.toNat ≤ 57

def charDigit (c : Char) : Nat := c.toNat - 48

/-- Decimal digits of `n`, most significant first. -/
def natDigits (n : Nat) : List Nat :=
  if n < 10 then [n] else natDigits (n / 10) ++ [n % 10]
termination_by n
decreasing_by
  exact Nat.div_lt_self (by omega) (by omega)

def natChars (n : Nat) : List Char := (natDigits n).map digitChar

/-- The decimal rendering of an integer as written by `json.dump`. -/
def intChars (v : Int) : List Char :=
  if v < 0 then '-' :: natChars v.natAbs else natChars v.natAbs

/-- One `indent=2` entry line body: two spaces, the quoted key, a colon,
a space and the value. -/
def dumpEntry (e : String × Int) : List Char :=
  ' ' :: ' ' :: '"' :: (e.1.data ++ '"' :: ':' :: ' ' :: intChars e.2)

/-- The entry lines joined by a comma and a newline. -/
def dumpEntries : Cache → List Char
  | [] => []
  | [e] => dumpEntry e
  | e :: es => dumpEntry e ++ ',' :: '\n' :: dumpEntries es

/-- Modelled from the spec: `json.dump(self.results, f, indent=2)` — `json`
is an external library; the spec fixes the backing store as "a textual
key-value document … mapping fingerprint strings to integer press counts".
This renders exactly the flat object document CPython's `json.dump` writes
with `indent=2`. -/
def dumpJson (m : Cache) : String :=
  match m with
  | [] => String.mk ['{', '}']
  | _ => String.mk ('{' :: '\n' :: (dumpEntries m ++ '\n' :: ['}']))

/-- Key characters up to the closing quote (escapes unsupported: the md5
hexdigest keys never contain them). -/
def parseKeyChars : List Char → Except String (List Char × List Char)
  | [] => Except.error "unterminated string"
  | c :: cs =>
    if c = '"' then Except.ok ([], cs)
    else if c = '\\' then Except.error "escape not supported"
    else
      match parseKeyChars cs with
      | Except.ok (k, rest) => Except.ok (c :: k, rest)
      | Except.error e => Except.error e

def parseNatChars (cs : List Char) : Except String (Nat × List Char) :=
  let digs := cs.takeWhile isDigitChar
  let rest := cs.dropWhile isDigitChar
  if digs.isEmpty then Except.error "expected digits"
  else Except.ok (digs.foldl (fun a c => 10 * a + charDigit c) 0, rest)

def parseIntChars : List Char → Except String (Int × List Char)
  | [] => Except.error "expected integer"
  | c :: cs =>
    if c = '-' then
      match parseNatChars cs with
      | Except.ok (n, rest) => Except.ok (-(n : Int), rest)
      | Except.error e => Except.error e
    else
      match parseNatChars (c :: cs) with
      | Except.ok (n, rest) => Except.ok ((n : Int), rest)
      | Except.error e => Except.error e

/-- The entry loop of the object parser, building the dictionary with
Python-dict insertion; consumes the closing brace.  The fuel argument only
bounds the number of entries and is supplied as the input length. -/
def parseEntries : Nat → Cache → List Char → Except String (Cache × List Char)
  | 0, _, _ => Except.error "too many entries"
  | fuel + 1, acc, cs =>
    match skipWs cs with
    | [] => Except.error "unterminated object"
    | c :: cs1 =>
      if c = '"' then
        match parseKeyChars cs1 with
        | Except.error e => Except.error e
        | Except.ok (k, cs2) =>
          match skipWs cs2 with
          | [] => Except.error "expected colon"
          | c2 :: cs3 =>
            if c2 = ':' then
              match parseIntChars (skipWs cs3) with
              | Except.error e => Except.error e
              | Except.ok (v, cs4) =>
                match skipWs cs4 with
                | [] => Except.error "expected comma or closing brace"
                | c3 :: cs5 =>
                  if c3 = ',' then parseEntries fuel (insertCache acc (String.mk k) v) cs5
                  else if c3 = '}' then Except.ok (insertCache acc (String.mk k) v, cs5)
                  else Except.error "expected comma or closing brace"
            else Except.error "expected colon"
      else Except.error "expected string key"

/-- Modelled from the spec: `json.load` (`json` is an external library)
restricted to the flat string→integer object documents the cache uses; any
deviation from that grammar is a parse error, which `json.load` raises. -/
def parseJson (txt : String) : Except String Cache :=
  match skipWs txt.data with
  | [] => Except.error "expected object"
  | c :: cs =>
    if c = '{' then
      match skipWs cs with
      | [] => Except.error "unterminated object"
      | c2 :: cs1 =>
        if c2 = '}' then
          if (skipWs cs1).isEmpty then Except.ok [] else Except.error "trailing data"
        else
          match parseEntries (cs.length + 1) [] cs with
          | Except.error e => Except.error e
          | Except.ok (m, rest) =>
            if (skipWs rest).isEmpty then Except.ok m else Except.error "trailing data"
    else Except.error "expected object"

/-- Embedding of `ButtonPressSolver.solve`, instrumented with the solving
strategy as a parameter and a count of strategy invocations: look the
fingerprint up, return the cached value on a hit (no strategy call),
otherwise run the strategy, record its result and return it. -/
def solveWith (strategy : Schematic → Int) (st : Cache) (s : Schematic) :
    Int × Cache × Nat :=
  match lookupCache st (fingerprint s) with
  | some v => (v, st, 0)
  | none => (strategy s, insertCache st (fingerprint s) (strategy s), 1)

/-- `ButtonPressSolver.solve` with its hardwired strategy,
`brute_force_solver`. -/
def ButtonPressSolver_solve (st : Cache) (s : Schematic) : Int × Cache × Nat :=
  solveWith brute_force_solver st s

/-- Result of `ButtonPressSolver.__exit__`: the backing store after the call,
whether the in-flight exception is suppressed, and the in-memory results,
which `__exit__` never modifies. -/
structure ExitResult where
  store : Option String
  suppress : Bool
  results : Cache
deriving DecidableEq

/-- Embedding of `ButtonPressSolver.__exit__`: with an in-flight exception it
returns `False` (the exception propagates) without touching the save file;
on normal exit it serializes the full results mapping to the save file. -/
def exitSession (exc : Option String) (store : Option String) (st : Cache) : ExitResult :=
  match exc with
  | some _ => { store := store, suppress := false, results := st }
  | none => { store := some (dumpJson st), suppress := false, results := st }

/-- Embedding of `ButtonPressSolver.__enter__`: an absent save file yields
empty results; an existing file is parsed by `json.load`, whose parse failure
propagates as an exception (`Except.error`). -/
def enterSession (store : Option String) : Except String Cache :=
  match store with
  | none => Except.ok []
  | some txt => parseJson txt

def exceptIsOk {ε α : Type} : Except ε α → Bool
  | Except.ok _ => true
  | Except.error _ => false

theorem lookupCache_cons_of_pos (e : String × Int) (es : Cache) (k : String)
    (h : (e.1 == k) = true) : lookupCache (e :: es) k = some e.2 := by
  simp [lookupCache, List.find?, h]

theorem lookupCache_cons_of_neg (e : String × Int) (es : Cache) (k : String)
    (h : (e.1 == k) = false) : lookupCache (e :: es) k = lookupCache es k := by
  simp [lookupCache, List.find?, h]

theorem lookupCache_insertCache_self :
    ∀ (st : Cache) (k : String) (v : Int),
      lookupCache (insertCache st k v) k = some v := by
  intro st k v
  induction st with
  | nil => simp [insertCache, lookupCache]
  | cons e es ih =>
    by_cases he : (e.1 == k) = true
    · have hany : (e :: es).any (fun x => x.1 == k) = true := by
        simp [List.any_cons, he]
      rw [insertCache, if_pos hany, List.map_cons]
      simp only [he, if_true]
      exact lookupCache_cons_of_pos (k, v) _ k (by simp)
    · have hne : (e.1 == k) = false := Bool.eq_false_iff.mpr he
      by_cases ha : es.any (fun x => x.1 == k) = true
      · have hany : (e :: es).any (fun x => x.1 == k) = true := by
          simp [List.any_cons, ha]
        rw [insertCache, if_pos hany, List.map_cons]
        simp only [hne, Bool.false_eq_true, if_false]
        rw [lookupCache_cons_of_neg e _ k hne]
        have hes : insertCache es k v = es.map (fun e => if e.1 == k then (k, v) else e) := by
          rw [insertCache, if_pos ha]
        rw [← hes]
        exact ih
      · have hany : (e :: es).any (fun x => x.1 == k) = false := by
          rw [List.any_cons, hne, Bool.eq_false_iff.mpr ha]
          rfl
      
        rw [insertCache, if_neg (by rw [hany]; exact Bool.false_ne_true), List.cons_append]
        rw [lookupCache_cons_of_neg e _ k hne]
        have hes : insertCache es k v = es ++ [(k, v)] := by
          rw [insertCache, if_neg (by rw [Bool.eq_false_iff.mpr ha]; exact Bool.false_ne_true)]
        rw [← hes]
        exact ih

/-- C3: a cache hit returns the cached count with zero strategy invocations
and an unchanged cache, for any strategy; consequently solving the same
schematic twice gives the same value and the second call is a hit with no
recomputation. -/
theorem C3_cache_hit_idempotent :
    (∀ (strategy : Schematic → Int) (st : Cache) (s : Schematic) (v : Int),
      lookupCache st (fingerprint s) = some v →
      solveWith strategy st s = (v, st, 0)) ∧
    (∀ (strategy : Schematic → Int) (st : Cache) (s : Schematic),
      (solveWith strategy (solveWith strategy st s).2.1 s).1 = (solveWith strategy st s).1 ∧
      (solveWith strategy (solveWith strategy st s).2.1 s).2.1 = (solveWith strategy st s).2.1 ∧
      (solveWith strategy (solveWith strategy st s).2.1 s).2.2 = 0) := by
  constructor
  · intro strategy st s v h
    simp only [solveWith, h]
  · intro strategy st s
    cases hl : lookupCache st (fingerprint s) with
    | some v => simp [solveWith, hl]
    | none =>
      simp [solveWith, hl, lookupCache_insertCache_self st (fingerprint s) (strategy s)]

/-- C3 witness: a cache seeded with the fingerprint of the one-button
schematic mapped to 7 makes solve return 7 with zero strategy calls, for a
strategy that would return 0. -/
theorem C3_witness :
    solveWith (fun _ => 0) [(fingerprint sTiny, 7)] sTiny
      = (7, [(fingerprint sTiny, 7)], 0) :=
  C3_cache_hit_idempotent.1 (fun _ => 0) [(fingerprint sTiny, 7)] sTiny 7
    (lookupCache_cons_of_pos _ _ _ (by simp))

/-- C4: on every normal exit of a session the full in-memory mapping is
serialized to the backing store and nothing is suppressed; on abnormal exit
(an in-flight exception) the store is left exactly as it was, the exception
is not suppressed, and the in-memory results are untouched. -/
theorem C4_exit_flush_semantics :
    (∀ (store : Option String) (st : Cache),
      exitSession none store st
        = { store := some (dumpJson st), suppress := false, results := st }) ∧
    (∀ (e : String) (store : Option String) (st : Cache),
      exitSession (some e) store st
        = { store := store, suppress := false, results := st }) :=
  ⟨fun _ _ => rfl, fun _ _ _ => rfl⟩

/-- C7 counterexample: after a normal `__exit__` the session object still
accepts solves — a cache-miss solve on the exited session invokes the
strategy (count 1), computes the answer and records it in the in-memory
results, contradicting the claim that a Closed session never computes or
records. -/
theorem C7_counterexample :
    (exitSession none none []).results = [] ∧
    (ButtonPressSolver_solve (exitSession none none []).results sTiny).2.2 = 1 ∧
    (ButtonPressSolver_solve (exitSession none none []).results sTiny).1 = 1 ∧
    lookupCache (ButtonPressSolver_solve (exitSession none none []).results sTiny).2.1
      (fingerprint sTiny) = some 1 := by
  refine ⟨rfl, ?_, ?_, ?_⟩ <;> decide

/-- C7 (amended): the implementation has no Closed state — `__exit__` leaves
the in-memory results untouched, solving after any exit behaves exactly as
before it, and a cache-miss solve always computes and records. -/
theorem C7_no_closed_guard :
    (∀ (exc store : Option String) (st : Cache), (exitSession exc store st).results = st) ∧
    (∀ (exc store : Option String) (st : Cache) (strategy : Schematic → Int) (s : Schematic),
      solveWith strategy (exitSession exc store st).results s = solveWith strategy st s) ∧
    (∀ (st : Cache) (strategy : Schematic → Int) (s : Schematic),
      lookupCache st (fingerprint s) = none →
      solveWith strategy st s
        = (strategy s, insertCache st (fingerprint s) (strategy s), 1)) := by
  have h1 : ∀ (exc store : Option String) (st : Cache),
      (exitSession exc store st).results = st := by
    intro exc store st
    cases exc <;> rfl
  refine ⟨h1, ?_, ?_⟩
  · intro exc store st strategy s
    rw [h1]
  · intro st strategy s h
    simp only [solveWith, h]

/-- C7 witness: the amended statement instantiated on an empty cache and the
one-button schematic. -/
theorem C7_witness :
    solveWith brute_force_solver [] sTiny
      = (brute_force_solver sTiny,
          insertCache [] (fingerprint sTiny) (brute_force_solver sTiny), 1) :=
  C7_no_closed_guard.2.2 [] brute_force_solver sTiny rfl

/-- C10: on a no-solution schematic a cache-miss solve returns the sentinel
`-1` and stores it under the fingerprint exactly like a valid count, every
subsequent solve of the same fingerprint returns `-1` as a cache hit, and a
clean exit serializes the mapping containing that `-1` entry to disk. -/
theorem C10_sentinel_cached (s : Schematic) (st : Cache) (store : Option String)
    (hnosol : ∀ i, i < 2 ^ n_buttons s → resultingLights s i ≠ s.lights)
    (hmiss : lookupCache st (fingerprint s) = none) :
    ButtonPressSolver_solve st s = (-1, insertCache st (fingerprint s) (-1), 1) ∧
    lookupCache (insertCache st (fingerprint s) (-1)) (fingerprint s) = some (-1) ∧
    ButtonPressSolver_solve (insertCache st (fingerprint s) (-1)) s
      = (-1, insertCache st (fingerprint s) (-1), 0) ∧
    (exitSession none store (insertCache st (fingerprint s) (-1))).store
      = some (dumpJson (insertCache st (fingerprint s) (-1))) := by
  have hbf : brute_force_solver s = -1 :=
    brute_force_sentinel s (fun i hi hm => absurd hm (hnosol i hi))
  refine ⟨?_, lookupCache_insertCache_self st _ _, ?_, rfl⟩
  · simp only [ButtonPressSolver_solve, solveWith, hmiss, hbf]
  · simp only [ButtonPressSolver_solve, solveWith,
      lookupCache_insertCache_self st (fingerprint s) (-1)]

/-- C10 witness: instantiated on spec Example 3 with an empty cache. -/
theorem C10_witness :
    ButtonPressSolver_solve [] sExample3
        = (-1, insertCache [] (fingerprint sExample3) (-1), 1) ∧
    lookupCache (insertCache [] (fingerprint sExample3) (-1)) (fingerprint sExample3)
        = some (-1) ∧
    ButtonPressSolver_solve (insertCache [] (fingerprint sExample3) (-1)) sExample3
        = (-1, insertCache [] (fingerprint sExample3) (-1), 0) ∧
    (exitSession none none (insertCache [] (fingerprint sExample3) (-1))).store
        = some (dumpJson (insertCache [] (fingerprint sExample3) (-1))) :=
  C10_sentinel_cached sExample3 [] none (by decide) rfl

theorem stringMk_data (s : String) : String.mk s.data = s := rfl

theorem skipWs_cons_ws (c : Char) (cs : List Char) (h : isWsChar c = true) :
    skipWs (c :: cs) = skipWs cs := by
  simp [skipWs, List.dropWhile_cons, h]

theorem skipWs_cons_not (c : Char) (cs : List Char) (h : isWsChar c = false) :
    skipWs (c :: cs) = c :: cs := by
  simp [skipWs, List.dropWhile_cons, h]

theorem parseKeyChars_clean :
    ∀ (k rest : List Char), (∀ c ∈ k, c ≠ '"' ∧ c ≠ '\\') →
      parseKeyChars (k ++ '"' :: rest) = Except.ok (k, rest) := by
  intro k
  induction k with
  | nil => intro rest _; simp [parseKeyChars]
  | cons c cs ih =>
    intro rest h
    have hc := h c (List.mem_cons_self c cs)
    simp only [List.cons_append, parseKeyChars, if_neg hc.1, if_neg hc.2, List.append_eq]
    rw [ih rest (fun x hx => h x (List.mem_cons_of_mem c hx))]

theorem natDigits_lt : ∀ n : Nat, ∀ d ∈ natDigits n, d < 10 := by
  intro n
  induction n using Nat.strong_induction_on with
  | _ n ih =>
    rw [natDigits]
    by_cases h : n < 10
    · simp only [if_pos h]
      intro d hd
      rw [List.mem_singleton.mp hd]
      exact h
    · simp only [if_neg h]
      intro d hd
      rcases List.mem_append.mp hd with hd | hd
      · exact ih (n / 10) (Nat.div_lt_self (by omega) (by omega)) d hd
      · rw [List.mem_singleton.mp hd]
        exact Nat.mod_lt n (by omega)

theorem natDigits_ne_nil (n : Nat) : natDigits n ≠ [] := by
  rw [natDigits]
  by_cases h : n < 10 <;> simp [h]

theorem digitChar_isDigit : ∀ d, d < 10 → isDigitChar (digitChar d) = true := by decide

theorem charDigit_digitChar : ∀ d, d < 10 → charDigit (digitChar d) = d := by decide

theorem digitChar_ne_minus : ∀ d, d < 10 → ¬ digitChar d = '-' := by decide

theorem digitChar_not_ws : ∀ d, d < 10 → isWsChar (digitChar d) = false := by decide

/-- A character list whose head, if any, fails the predicate. -/
def HeadNot (p : Char → Bool) : List Char → Prop
  | [] => True
  | c :: _ => p c = false

/-- A character list without a leading decimal digit. -/
def NoDigitHead (l : List Char) : Prop := HeadNot isDigitChar l

theorem takeWhile_all_append (p : Char → Bool) :
    ∀ (l rest : List Char), (∀ c ∈ l, p c = true) → HeadNot p rest →
      (l ++ rest).takeWhile p = l ∧ (l ++ rest).dropWhile p = rest := by
  intro l
  induction l with
  | nil =>
    intro rest _ hr
    cases rest with
    | nil => exact ⟨rfl, rfl⟩
    | cons c cs =>
      have hc : p c = false := hr
      constructor
      · simp [List.takeWhile_cons, hc]
      · simp [List.dropWhile_cons, hc]
  | cons x xs ih =>
    intro rest h hr
    have hx := h x (List.mem_cons_self x xs)
    have := ih rest (fun c hc => h c (List.mem_cons_of_mem x hc)) hr
    constructor
    · simp [List.takeWhile_cons, hx, this.1]
    · simp [List.dropWhile_cons, hx, this.2]

theorem foldl_digits_value :
    ∀ n a : Nat, (natDigits n).foldl (fun x d => 10 * x + d) a
      = a * 10 ^ (natDigits n).length + n := by
  intro n
  induction n using Nat.strong_induction_on with
  | _ n ih =>
    intro a
    rw [natDigits]
    by_cases h : n < 10
    · simp only [if_pos h, List.foldl, List.length_cons, List.length_nil]
      ring_nf
    · simp only [if_neg h, List.foldl_append, List.foldl, List.length_append,
        List.length_cons, List.length_nil]
      rw [ih (n / 10) (Nat.div_lt_self (by omega) (by omega)) a]
      have hdm : 10 * (n / 10) + n % 10 = n := Nat.div_add_mod n 10
      set L := (natDigits (n / 10)).length
      calc 10 * (a * 10 ^ L + n / 10) + n % 10
          = a * (10 ^ L * 10) + (10 * (n / 10) + n % 10) := by ring
        _ = a * 10 ^ (L + 0 + 1) + n := by rw [hdm, Nat.pow_succ]

theorem natChars_ne_nil (n : Nat) : natChars n ≠ [] := by
  rw [natChars]
  intro h
  exact natDigits_ne_nil n (List.map_eq_nil_iff.mp h)

theorem parseNatChars_natChars (n : Nat) (rest : List Char) (hr : NoDigitHead rest) :
    parseNatChars (natChars n ++ rest) = Except.ok (n, rest) := by
  have hall : ∀ c ∈ natChars n, isDigitChar c = true := by
    intro c hc
    rcases List.mem_map.mp hc with ⟨d, hd, hcd⟩
    rw [← hcd]
    exact digitChar_isDigit d (natDigits_lt n d hd)
  have htd := takeWhile_all_append isDigitChar (natChars n) rest hall hr
  rw [parseNatChars]
  simp only [htd.1, htd.2]
  rw [if_neg (by simpa [List.isEmpty_iff] using natChars_ne_nil n)]
  have hval : (natChars n).foldl (fun a c => 10 * a + charDigit c) 0 = n := by
    rw [natChars, List.foldl_map]
    have : (natDigits n).foldl (fun a d => 10 * a + charDigit (digitChar d)) 0
        = (natDigits n).foldl (fun a d => 10 * a + d) 0 := by
      apply foldl_congr_mem
      intro d hd x
      rw [charDigit_digitChar d (natDigits_lt n d hd)]
    rw [this, foldl_digits_value n 0]
    simp
  rw [hval]

theorem parseIntChars_intChars (v : Int) (rest : List Char) (hr : NoDigitHead rest) :
    parseIntChars (intChars v ++ rest) = Except.ok (v, rest) := by
  by_cases hv : v < 0
  · rw [intChars, if_pos hv, List.cons_append]
    simp only [parseIntChars, if_pos rfl, parseNatChars_natChars v.natAbs rest hr]
    have hcast : -((v.natAbs : Int)) = v := by omega
    rw [hcast]
    simp
  · rw [intChars, if_neg hv]
    cases hnd : natDigits v.natAbs with
    | nil => exact absurd hnd (natDigits_ne_nil _)
    | cons d ds =>
      have hd10 : d < 10 := natDigits_lt v.natAbs d (by rw [hnd]; exact List.mem_cons_self d ds)
      have hnc : natChars v.natAbs = digitChar d :: ds.map digitChar := by
        rw [natChars, hnd, List.map_cons]
      rw [hnc, List.cons_append]
      simp only [parseIntChars, if_neg (digitChar_ne_minus d hd10)]
      rw [← List.cons_append, ← hnc]
      simp only [parseNatChars_natChars v.natAbs rest hr]
      have hcast : ((v.natAbs : Int)) = v := by omega
      rw [hcast]

theorem insertCache_append (st : Cache) (k : String) (v : Int)
    (h : ∀ e ∈ st, e.1 ≠ k) : insertCache st k v = st ++ [(k, v)] := by
  rw [insertCache, if_neg]
  intro hany
  rcases List.any_eq_true.mp hany with ⟨x, hx, hbeq⟩
  exact h x hx (by simpa using hbeq)

theorem skipWs_intChars (v : Int) (tail : List Char) :
    skipWs (intChars v ++ tail) = intChars v ++ tail := by
  by_cases hv : v < 0
  · rw [intChars, if_pos hv, List.cons_append, skipWs_cons_not _ _ (by decide)]
  · rw [intChars, if_neg hv]
    cases hnd : natDigits v.natAbs with
    | nil => exact absurd hnd (natDigits_ne_nil _)
    | cons d ds =>
      have hd10 : d < 10 := natDigits_lt v.natAbs d (by rw [hnd]; exact List.mem_cons_self d ds)
      have hnc : natChars v.natAbs = digitChar d :: ds.map digitChar := by
        rw [natChars, hnd, List.map_cons]
      rw [hnc, List.cons_append, skipWs_cons_not _ _ (digitChar_not_ws d hd10)]

theorem parseEntries_step (f : Nat) (acc : Cache) (key : String) (v : Int) (tail : List Char)
    (hkey : ∀ c ∈ key.data, c ≠ '"' ∧ c ≠ '\\')
    (htail : NoDigitHead tail) :
    parseEntries (f + 1) acc ('\n' :: (dumpEntry (key, v) ++ tail))
      = (match skipWs tail with
         | [] => Except.error "expected comma or closing brace"
         | c3 :: cs5 =>
           if c3 = ',' then parseEntries f (insertCache acc key v) cs5
           else if c3 = '}' then Except.ok (insertCache acc key v, cs5)
           else Except.error "expected comma or closing brace") := by
  have hskip1 : skipWs ('\n' :: (dumpEntry (key, v) ++ tail))
      = '"' :: (key.data ++ '"' :: ':' :: ' ' :: (intChars v ++ tail)) := by
    rw [dumpEntry]
    simp only [List.cons_append]
    rw [skipWs_cons_ws _ _ (by decide), skipWs_cons_ws _ _ (by decide),
      skipWs_cons_ws _ _ (by decide), skipWs_cons_not _ _ (by decide)]
    simp [List.append_assoc]
  have hsk2 : skipWs (':' :: ' ' :: (intChars v ++ tail))
      = ':' :: ' ' :: (intChars v ++ tail) := skipWs_cons_not _ _ (by decide)
  have hsk3 : skipWs (' ' :: (intChars v ++ tail)) = intChars v ++ tail := by
    rw [skipWs_cons_ws _ _ (by decide), skipWs_intChars]
  simp only [parseEntries, hskip1,
    parseKeyChars_clean key.data (':' :: ' ' :: (intChars v ++ tail)) hkey,
    hsk2, hsk3, parseIntChars_intChars v tail htail, stringMk_data]
  simp

theorem parseEntries_dumpEntries :
    ∀ (m acc : Cache) (f : Nat) (rest : List Char),
      m ≠ [] → m.length ≤ f →
      (∀ e ∈ m, ∀ c ∈ (e.1).data, c ≠ '"' ∧ c ≠ '\\') →
      (∀ e ∈ m, ∀ a ∈ acc, a.1 ≠ e.1) →
      (m.map (fun e => e.1)).Nodup →
      parseEntries f acc ('\n' :: (dumpEntries m ++ '\n' :: '}' :: rest))
        = Except.ok (acc ++ m, rest) := by
  intro m
  induction m with
  | nil => intro acc f rest hne; exact absurd rfl hne
  | cons e m ih =>
    intro acc f rest _ hf hclean hdisj hnodup
    cases f with
    | zero => simp at hf
    | succ f =>
      have hinsert : insertCache acc e.1 e.2 = acc ++ [e] := by
        rw [insertCache_append acc e.1 e.2
          (fun a ha => hdisj e (List.mem_cons_self e m) a ha)]
      cases m with
      | nil =>
        have hdump : dumpEntries [e] = dumpEntry e := rfl
        rw [hdump]
        have hstep := parseEntries_step f acc e.1 e.2 ('\n' :: '}' :: rest)
          (hclean e (List.mem_cons_self e [])) (by trivial)
        rw [show ((e.1, e.2) : String × Int) = e from rfl] at hstep
        rw [hstep]
        rw [skipWs_cons_ws _ _ (by decide), skipWs_cons_not _ _ (by decide)]
        simp only [if_neg (show ¬ ('}' : Char) = ',' by decide), if_pos rfl]
        rw [hinsert]
        simp
      | cons e2 m2 =>
        have hdump : dumpEntries (e :: e2 :: m2)
            = dumpEntry e ++ ',' :: '\n' :: dumpEntries (e2 :: m2) := rfl
        rw [hdump]
        have hassoc : (dumpEntry e ++ ',' :: '\n' :: dumpEntries (e2 :: m2))
              ++ '\n' :: '}' :: rest
            = dumpEntry e ++
                (',' :: ('\n' :: (dumpEntries (e2 :: m2) ++ '\n' :: '}' :: rest))) := by
          simp [List.append_assoc]
        rw [hassoc]
        have hstep := parseEntries_step f acc e.1 e.2
          (',' :: ('\n' :: (dumpEntries (e2 :: m2) ++ '\n' :: '}' :: rest)))
          (hclean e (List.mem_cons_self e (e2 :: m2))) (by trivial)
        rw [show ((e.1, e.2) : String × Int) = e from rfl] at hstep
        rw [hstep]
        rw [skipWs_cons_not _ _ (by decide)]
        simp only [if_pos rfl]
        rw [hinsert]
        have hnd : e.1 ∉ (e2 :: m2).map (fun x => x.1) ∧
            ((e2 :: m2).map (fun x => x.1)).Nodup := by
          rw [List.map_cons] at hnodup
          exact List.nodup_cons.mp hnodup
        have hkey_notin : e.1 ∉ (e2 :: m2).map (fun x => x.1) := hnd.1
        rw [ih (acc ++ [e]) f rest (by simp) (by simpa using hf)
          (fun x hx => hclean x (List.mem_cons_of_mem e hx))
          (by
            intro x hx a ha
            rcases List.mem_append.mp ha with ha | ha
            · exact hdisj x (List.mem_cons_of_mem e hx) a ha
            · rw [List.mem_singleton.mp ha]
              intro hcontra
              exact hkey_notin (by
                rw [hcontra]
                exact List.mem_map.mpr ⟨x, hx, rfl⟩))
          hnd.2]
        rw [List.append_assoc]
        rfl

theorem dumpEntry_length_pos (e : String × Int) : 1 ≤ (dumpEntry e).length := by
  rw [dumpEntry]
  simp

theorem dumpEntries_length_ge : ∀ m : Cache, m.length ≤ (dumpEntries m).length := by
  intro m
  induction m with
  | nil => exact Nat.le_refl 0
  | cons e m ih =>
    cases m with
    | nil =>
      have := dumpEntry_length_pos e
      simpa [dumpEntries] using this
    | cons e2 m2 =>
      have hdump : dumpEntries (e :: e2 :: m2)
          = dumpEntry e ++ ',' :: '\n' :: dumpEntries (e2 :: m2) := rfl
      rw [hdump]
      simp only [List.length_cons, List.length_append]
      have h1 := dumpEntry_length_pos e
      have h2 : (e2 :: m2).length ≤ (dumpEntries (e2 :: m2)).length := ih
      simp only [List.length_cons] at h2 ⊢
      omega

theorem parseJson_dumpJson (m : Cache)
    (hclean : ∀ e ∈ m, ∀ c ∈ (e.1).data, c ≠ '"' ∧ c ≠ '\\')
    (hnodup : (m.map (fun e => e.1)).Nodup) :
    parseJson (dumpJson m) = Except.ok m := by
  cases m with
  | nil => rfl
  | cons e m2 =>
    have hdata : (dumpJson (e :: m2)).data
        = '{' :: '\n' :: (dumpEntries (e :: m2) ++ '\n' :: ['}']) := rfl
    rw [parseJson, hdata]
    rw [skipWs_cons_not _ _ (by decide)]
    simp only [if_pos rfl]
    have hskip2 : skipWs ('\n' :: (dumpEntries (e :: m2) ++ '\n' :: ['}']))
        = skipWs (dumpEntries (e :: m2) ++ '\n' :: ['}']) :=
      skipWs_cons_ws _ _ (by decide)
    have hhead : ∃ cs', skipWs (dumpEntries (e :: m2) ++ '\n' :: ['}']) = '"' :: cs' := by
      cases m2 with
      | nil =>
        refine ⟨e.1.data ++ '"' :: ':' :: ' ' :: (intChars e.2 ++ '\n' :: ['}']), ?_⟩
        have : dumpEntries [e] = dumpEntry e := rfl
        rw [this, dumpEntry]
        simp only [List.cons_append]
        rw [skipWs_cons_ws _ _ (by decide), skipWs_cons_ws _ _ (by decide),
          skipWs_cons_not _ _ (by decide)]
        simp [List.append_assoc]
      | cons e2 m3 =>
        refine ⟨e.1.data ++ '"' :: ':' :: ' ' ::
          (intChars e.2 ++ ',' :: '\n' :: dumpEntries (e2 :: m3) ++ '\n' :: ['}']), ?_⟩
        have : dumpEntries (e :: e2 :: m3)
            = dumpEntry e ++ ',' :: '\n' :: dumpEntries (e2 :: m3) := rfl
        rw [this, dumpEntry]
        simp only [List.cons_append, List.append_assoc]
        rw [skipWs_cons_ws _ _ (by decide), skipWs_cons_ws _ _ (by decide),
          skipWs_cons_not _ _ (by decide)]
    rcases hhead with ⟨cs', hcs'⟩
    rw [hskip2, hcs']
    simp only [if_neg (show ¬ ('"' : Char) = '}' by decide)]
    have hfuel : (e :: m2).length
        ≤ ('\n' :: (dumpEntries (e :: m2) ++ '\n' :: ['}'])).length + 1 := by
      have h1 := dumpEntries_length_ge (e :: m2)
      have h2 : ('\n' :: (dumpEntries (e :: m2) ++ '\n' :: ['}'])).length
          = (dumpEntries (e :: m2)).length + 3 := by simp
      omega
    have hmain := parseEntries_dumpEntries (e :: m2) []
      (('\n' :: (dumpEntries (e :: m2) ++ '\n' :: ['}'])).length + 1) [] (by simp)
      hfuel hclean (by simp) hnodup
    rw [hmain]
    simp [skipWs]

/-- C5: flushing the in-memory fingerprint→count mapping to the backing
store on a clean session exit and then loading from that store reproduces
the identical mapping, for every mapping with distinct keys free of JSON
escape characters (md5 hexdigest keys are such). -/
theorem C5_flush_load_roundtrip (m : Cache) (store : Option String)
    (hclean : ∀ e ∈ m, ∀ c ∈ (e.1).data, c ≠ '"' ∧ c ≠ '\\')
    (hnodup : (m.map (fun e => e.1)).Nodup) :
    enterSession (exitSession none store m).store = Except.ok m := by
  have h1 : (exitSession none store m).store = some (dumpJson m) := rfl
  rw [h1]
  show parseJson (dumpJson m) = Except.ok m
  exact parseJson_dumpJson m hclean hnodup

/-- C5 witness: a concrete two-entry mapping (including a `-1` count)
round-trips through flush and load. -/
theorem C5_witness :
    enterSession (exitSession none none [("a3f", 7), ("ffee", -1)]).store
      = Except.ok [("a3f", 7), ("ffee", -1)] :=
  C5_flush_load_roundtrip [("a3f", 7), ("ffee", -1)] none (by decide) (by decide)

/-- C6 counterexample: loading an existing but unparsable backing store does
not fall back to an empty cache — the parse failure propagates (the load is
not `Except.ok`), while the absent-store case does initialize empty. -/
theorem C6_counterexample :
    exceptIsOk (enterSession (some "BROKEN CACHE")) = false ∧
    enterSession none = Except.ok [] := ⟨rfl, rfl⟩

/-- C6 (amended): load never raises for a missing backing store — it
initializes an empty cache — but when the store exists and cannot be parsed
the parse error propagates to the caller instead of being recovered into an
empty in-memory cache. -/
theorem C6_load_semantics :
    enterSession none = Except.ok [] ∧
    (∀ (txt err : String), parseJson txt = Except.error err →
      enterSession (some txt) = Except.error err) :=
  ⟨rfl, fun _ _ h => h⟩

/-- C6 witness: the amended statement instantiated on a concrete unparsable
store. -/
theorem C6_witness :
    enterSession (some "BROKEN CACHE") = Except.error "expected object" :=
  C6_load_semantics.2 "BROKEN CACHE" "expected object" rfl

/-- A row of the GF(2) linear system: wiring coefficients and target bit,
swapped in lock-step as the spec requires. -/
abbrev GRow := List Bool × Bool

/-- The linear system: one row per light. -/
abbrev GSystem := List GRow

def coeffAt (row : GRow) (c : Nat) : Bool := row.1.getD c false

def xorRow (r p : GRow) : GRow := (List.zipWith Bool.xor r.1 p.1, Bool.xor r.2 p.2)

/-- Modelled from the spec: step 1 of GF2LinearSolver's elimination — scan
rows `c..L-1` for a row with a 1 in column `c` (the component is absent from
the repository; spec section 4.1 defines it). -/
def pivotRow? (sys : GSystem) (c : Nat) : Option Nat :=
  (List.range sys.length).find? (fun r => decide (c ≤ r) && coeffAt (sys.getD r ([], false)) c)

/-- Modelled from the spec: step 2 — swap the pivot row into position `c`,
matrix and target in lock-step. -/
def swapRows (sys : GSystem) (i j : Nat) : GSystem :=
  (List.range sys.length).map (fun r =>
    if r = i then sys.getD j ([], false)
    else if r = j then sys.getD i ([], false)
    else sys.getD r ([], false))

/-- Modelled from the spec: step 3 — xor the pivot row `c` into every other
row with a 1 in column `c`. -/
def elimColumn (sys : GSystem) (c : Nat) : GSystem :=
  (List.range sys.length).map (fun r =>
    if r ≠ c ∧ coeffAt (sys.getD r ([], false)) c = true then
      xorRow (sys.getD r ([], false)) (sys.getD c ([], false))
    else sys.getD r ([], false))

/-- Modelled from the spec: one column of Gaussian elimination — a column
with no pivot candidate is skipped (free variable). -/
def stepColumn (sys : GSystem) (c : Nat) : GSystem :=
  match pivotRow? sys c with
  | none => sys
  | some r => elimColumn (swapRows sys c r) c

/-- Modelled from the spec: the full elimination over columns `0..B-1`. -/
def gf2_eliminate (sys : GSystem) (B : Nat) : GSystem :=
  (List.range B).foldl stepColumn sys

inductive GF2Error where
  | InconsistentSystem
deriving DecidableEq

def rowIsZero (row : GRow) : Bool := row.1.all (fun b => !b)

/-- The GF(2) system of a schematic: wiring rows paired with target bits. -/
def gsys (s : Schematic) : GSystem :=
  List.zipWith (fun row l => (row.map (fun x => decide (x = 1)), decide (l = 1)))
    s.button_wiring s.lights

/-- Modelled from the spec: `GF2LinearSolver.solve` (spec section 4.1, absent
from the repository) — reduce to row-echelon form; a zero coefficient row
with a non-zero target signals `InconsistentSystem`; otherwise the number of
1-bits remaining in the reduced target vector is reported as the minimum
press count. -/
def GF2LinearSolver_solve (s : Schematic) : Except GF2Error Nat :=
  let sys := gf2_eliminate (gsys s) (n_buttons s)
  if sys.any (fun row => rowIsZero row && row.2) then
    Except.error GF2Error.InconsistentSystem
  else Except.ok ((sys.filter (fun row => row.2)).length)

/-- Spec counterexample instance: buttons `[1,0]`, `[0,1]`, `[1,1]`, target
`[1,1]` — solvable with one press of the third button, but a free column
remains after elimination. -/
def sFreeColumn : Schematic :=
  { lights := [1, 1], button_wiring := [[1, 0, 1], [0, 1, 1]],
    joltage_requirements := [] }

/-- Spec Example 1: independent buttons, target `[1,0]`. -/
def sExample1 : Schematic :=
  { lights := [1, 0], button_wiring := [[1, 0], [0, 1]], joltage_requirements := [] }

deriving instance DecidableEq for Except

/-- C9 counterexample: on a solvable schematic with a free (pivotless)
column, the modelled GF2 elimination solver reports 2 while the exhaustive
search reports the true minimum 1, so the two strategies disagree. -/
theorem C9_counterexample :
    GF2LinearSolver_solve sFreeColumn = Except.ok 2 ∧
    brute_force_solver sFreeColumn = 1 := by decide

/-- GF(2) dot product of a coefficient row with a press vector. -/
def dotB (a x : List Bool) : Bool :=
  (List.zipWith (fun p q => p && q) a x).foldr Bool.xor false

theorem dotB_nil_left (x : List Bool) : dotB [] x = false := rfl

theorem dotB_nil_right (a : List Bool) : dotB a [] = false := by
  cases a <;> rfl

theorem dotB_cons (a x : Bool) (as xs : List Bool) :
    dotB (a :: as) (x :: xs) = Bool.xor (a && x) (dotB as xs) := rfl

theorem dotB_zipWith_xor :
    ∀ (a b x : List Bool), a.length = b.length →
      dotB (List.zipWith Bool.xor a b) x = Bool.xor (dotB a x) (dotB b x) := by
  intro a
  induction a with
  | nil =>
    intro b x h
    rw [List.eq_nil_of_length_eq_zero h.symm]
    simp [dotB_nil_left]
  | cons a as ih =>
    intro b x h
    cases b with
    | nil => simp at h
    | cons b bs =>
      cases x with
      | nil =>
        rw [dotB_nil_right, dotB_nil_right, dotB_nil_right]
        rfl
      | cons x xs =>
        have hz : List.zipWith Bool.xor (a :: as) (b :: bs)
            = Bool.xor a b :: List.zipWith Bool.xor as bs := rfl
        rw [hz, dotB_cons, dotB_cons, dotB_cons,
          ih bs xs (Nat.succ_injective (by simpa using h))]
        generalize dotB as xs = A
        generalize dotB bs xs = B
        cases a <;> cases b <;> cases x <;> cases A <;> cases B <;> rfl

theorem dotB_all_false (a x : List Bool) (h : ∀ b ∈ a, b = false) :
    dotB a x = false := by
  induction a generalizing x with
  | nil => exact dotB_nil_left x
  | cons b bs ih =>
    cases x with
    | nil => exact dotB_nil_right _
    | cons x xs =>
      rw [dotB_cons, h b (List.mem_cons_self b bs), ih xs
        (fun c hc => h c (List.mem_cons_of_mem b hc))]
      rfl

/-- The unit coefficient row with a single 1 in column `r`. -/
def unitVec (B r : Nat) : List Bool :=
  List.replicate r false ++ true :: List.replicate (B - r - 1) false

theorem dotB_replicate_false (k : Nat) (x : List Bool) :
    dotB (List.replicate k false) x = false := by
  apply dotB_all_false
  intro b hb
  exact List.eq_of_mem_replicate hb

theorem dotB_unitVec :
    ∀ (r : Nat) (x : List Bool), r < x.length →
      dotB (unitVec x.length r) x = x.getD r false := by
  intro r
  induction r with
  | zero =>
    intro x hx
    cases x with
    | nil => exact absurd hx (Nat.lt_irrefl 0)
    | cons x xs =>
      show dotB (true :: List.replicate ((xs.length + 1) - 0 - 1) false) (x :: xs) = x
      rw [dotB_cons, dotB_replicate_false]
      cases x <;> rfl
  | succ r ih =>
    intro x hx
    cases x with
    | nil => exact absurd hx (Nat.not_lt_zero _)
    | cons x xs =>
      have h1 : unitVec (x :: xs).length (r + 1)
          = false :: unitVec xs.length r := by
        rw [unitVec, unitVec, List.replicate_succ, List.cons_append]
        have harith : (x :: xs).length - (r + 1) - 1 = xs.length - r - 1 := by
          simp only [List.length_cons]
          omega
        rw [harith]
      rw [h1, dotB_cons]
      rw [ih xs (Nat.lt_of_succ_lt_succ hx)]
      simp

/-- Satisfaction of the whole system by a press vector. -/
def SysSat (x : List Bool) (sys : GSystem) : Prop :=
  ∀ r, r < sys.length →
    dotB (sys.getD r ([], false)).1 x = (sys.getD r ([], false)).2

/-- All coefficient rows have the common length `B`. -/
def RowsLen (sys : GSystem) (B : Nat) : Prop := ∀ row ∈ sys, row.1.length = B

theorem getD_mem_any {α : Type} (l : List α) (d : α) (r : Nat) (h : r < l.length) :
    l.getD r d ∈ l := by
  rw [List.getD_eq_getElem _ d h]
  exact List.getElem_mem h

theorem swapRows_length (sys : GSystem) (i j : Nat) :
    (swapRows sys i j).length = sys.length := by
  simp [swapRows]

theorem elimColumn_length (sys : GSystem) (c : Nat) :
    (elimColumn sys c).length = sys.length := by
  simp [elimColumn]

theorem stepColumn_length (sys : GSystem) (c : Nat) :
    (stepColumn sys c).length = sys.length := by
  rw [stepColumn]
  cases pivotRow? sys c with
  | none => rfl
  | some r => rw [elimColumn_length, swapRows_length]

theorem gf2_eliminate_length (sys : GSystem) (B : Nat) :
    (gf2_eliminate sys B).length = sys.length := by
  rw [gf2_eliminate]
  generalize List.range B = l
  induction l generalizing sys with
  | nil => rfl
  | cons c cs ih =>
    rw [List.foldl_cons, ih (stepColumn sys c), stepColumn_length]

theorem swapRows_getD (sys : GSystem) (i j r : Nat) (hr : r < sys.length) :
    (swapRows sys i j).getD r ([], false)
      = if r = i then sys.getD j ([], false)
        else if r = j then sys.getD i ([], false)
        else sys.getD r ([], false) :=
  getD_map_range _ sys.length r hr _

theorem elimColumn_getD (sys : GSystem) (c r : Nat) (hr : r < sys.length) :
    (elimColumn sys c).getD r ([], false)
      = if r ≠ c ∧ coeffAt (sys.getD r ([], false)) c = true then
          xorRow (sys.getD r ([], false)) (sys.getD c ([], false))
        else sys.getD r ([], false) :=
  getD_map_range _ sys.length r hr _

theorem rowsLen_swap (sys : GSystem) (B i j : Nat) (hi : i < sys.length)
    (hj : j < sys.length) (h : RowsLen sys B) : RowsLen (swapRows sys i j) B := by
  intro row hrow
  rcases List.mem_map.mp hrow with ⟨r, hrmem, hre⟩
  have hr : r < sys.length := List.mem_range.mp hrmem
  rw [← hre]
  by_cases h1 : r = i
  · simp only [if_pos h1]
    exact h _ (getD_mem_any sys ([], false) j hj)
  · by_cases h2 : r = j
    · simp only [if_neg h1, if_pos h2]
      exact h _ (getD_mem_any sys ([], false) i hi)
    · simp only [if_neg h1, if_neg h2]
      exact h _ (getD_mem_any sys ([], false) r hr)

theorem rowsLen_elim (sys : GSystem) (B c : Nat) (hc : c < sys.length)
    (h : RowsLen sys B) : RowsLen (elimColumn sys c) B := by
  intro row hrow
  rcases List.mem_map.mp hrow with ⟨r, hrmem, hre⟩
  have hr : r < sys.length := List.mem_range.mp hrmem
  rw [← hre]
  by_cases h1 : r ≠ c ∧ coeffAt (sys.getD r ([], false)) c = true
  · simp only [if_pos h1]
    show (List.zipWith Bool.xor _ _).length = B
    rw [List.length_zipWith, h _ (getD_mem_any sys ([], false) r hr),
      h _ (getD_mem_any sys ([], false) c hc), Nat.min_self]
  · simp only [if_neg h1]
    exact h _ (getD_mem_any sys ([], false) r hr)

def swapIdx (i j r : Nat) : Nat := if r = i then j else if r = j then i else r

theorem swapRows_getD2 (sys : GSystem) (i j r : Nat) (hr : r < sys.length) :
    (swapRows sys i j).getD r ([], false) = sys.getD (swapIdx i j r) ([], false) := by
  rw [swapRows_getD sys i j r hr, swapIdx]
  by_cases h1 : r = i
  · rw [if_pos h1, if_pos h1]
  · rw [if_neg h1, if_neg h1]
    by_cases h2 : r = j
    · rw [if_pos h2, if_pos h2]
    · rw [if_neg h2, if_neg h2]

theorem swapIdx_lt {n : Nat} (i j r : Nat) (hi : i < n) (hj : j < n) (hr : r < n) :
    swapIdx i j r < n := by
  rw [swapIdx]
  split_ifs <;> assumption

theorem swapIdx_invol (i j r : Nat) : swapIdx i j (swapIdx i j r) = r := by
  rw [swapIdx, swapIdx]
  split_ifs <;> omega

theorem sysSat_swap (x : List Bool) (sys : GSystem) (i j : Nat)
    (hi : i < sys.length) (hj : j < sys.length) :
    SysSat x (swapRows sys i j) ↔ SysSat x sys := by
  constructor
  · intro hs r hr
    have hlt : swapIdx i j r < sys.length := swapIdx_lt i j r hi hj hr
    have h1 := hs (swapIdx i j r) (by rw [swapRows_length]; exact hlt)
    rw [swapRows_getD2 sys i j _ hlt, swapIdx_invol] at h1
    exact h1
  · intro hs r hr'
    have hr : r < sys.length := by rw [swapRows_length] at hr'; exact hr'
    rw [swapRows_getD2 sys i j r hr]
    exact hs (swapIdx i j r) (swapIdx_lt i j r hi hj hr)

theorem xorRow_fst (u v : GRow) : (xorRow u v).1 = List.zipWith Bool.xor u.1 v.1 := rfl

theorem xorRow_snd (u v : GRow) : (xorRow u v).2 = Bool.xor u.2 v.2 := rfl

theorem sysSat_elim (x : List Bool) (sys : GSystem) (c : Nat) (hc : c < sys.length)
    (B : Nat) (hlen : RowsLen sys B) :
    SysSat x (elimColumn sys c) ↔ SysSat x sys := by
  have hcc : (elimColumn sys c).getD c ([], false) = sys.getD c ([], false) := by
    rw [elimColumn_getD sys c c hc, if_neg]
    intro hcon
    exact hcon.1 rfl
  have hleneq : ∀ r, r < sys.length →
      (sys.getD r ([], false)).1.length = (sys.getD c ([], false)).1.length := by
    intro r hr
    rw [hlen _ (getD_mem_any sys ([], false) r hr),
      hlen _ (getD_mem_any sys ([], false) c hc)]
  constructor
  · intro hs r hr
    by_cases hcond : r ≠ c ∧ coeffAt (sys.getD r ([], false)) c = true
    · have h1 := hs r (by rw [elimColumn_length]; exact hr)
      rw [elimColumn_getD sys c r hr, if_pos hcond, xorRow_fst, xorRow_snd,
        dotB_zipWith_xor _ _ x (hleneq r hr)] at h1
      have h2 := hs c (by rw [elimColumn_length]; exact hc)
      rw [hcc] at h2
      rw [h2] at h1
      cases hcv : (sys.getD c ([], false)).2 with
      | false =>
        rw [hcv, Bool.xor_false, Bool.xor_false] at h1
        exact h1
      | true =>
        rw [hcv, Bool.xor_true, Bool.xor_true] at h1
        exact Bool.not_inj h1
    · have h1 := hs r (by rw [elimColumn_length]; exact hr)
      rw [elimColumn_getD sys c r hr, if_neg hcond] at h1
      exact h1
  · intro hs r hr'
    have hr : r < sys.length := by rw [elimColumn_length] at hr'; exact hr'
    rw [elimColumn_getD sys c r hr]
    by_cases hcond : r ≠ c ∧ coeffAt (sys.getD r ([], false)) c = true
    · rw [if_pos hcond, xorRow_fst, xorRow_snd,
        dotB_zipWith_xor _ _ x (hleneq r hr), hs r hr, hs c hc]
    · rw [if_neg hcond]
      exact hs r hr

theorem pivotRow?_facts (sys : GSystem) (c r : Nat) (hp : pivotRow? sys c = some r) :
    c ≤ r ∧ r < sys.length := by
  have hrmem : r ∈ List.range sys.length := List.mem_of_find?_eq_some hp
  have hpred := List.find?_some hp
  simp only [Bool.and_eq_true, decide_eq_true_eq] at hpred
  exact ⟨hpred.1, List.mem_range.mp hrmem⟩

theorem rowsLen_step (sys : GSystem) (B c : Nat) (h : RowsLen sys B) :
    RowsLen (stepColumn sys c) B := by
  rw [stepColumn]
  cases hp : pivotRow? sys c with
  | none => exact h
  | some r =>
    have hf := pivotRow?_facts sys c r hp
    have hc : c < sys.length := Nat.lt_of_le_of_lt hf.1 hf.2
    exact rowsLen_elim _ B c (by rw [swapRows_length]; exact hc)
      (rowsLen_swap sys B c r hc hf.2 h)

theorem sysSat_step (x : List Bool) (sys : GSystem) (c B : Nat) (hlen : RowsLen sys B) :
    SysSat x (stepColumn sys c) ↔ SysSat x sys := by
  rw [stepColumn]
  cases hp : pivotRow? sys c with
  | none => exact Iff.rfl
  | some r =>
    have hf := pivotRow?_facts sys c r hp
    have hc : c < sys.length := Nat.lt_of_le_of_lt hf.1 hf.2
    rw [sysSat_elim x _ c (by rw [swapRows_length]; exact hc) B
      (rowsLen_swap sys B c r hc hf.2 hlen)]
    exact sysSat_swap x sys c r hc hf.2

theorem rowsLen_eliminate (sys : GSystem) (B : Nat) (h : RowsLen sys B) :
    RowsLen (gf2_eliminate sys B) B := by
  rw [gf2_eliminate]
  generalize List.range B = l
  induction l generalizing sys with
  | nil => exact h
  | cons c cs ih =>
    rw [List.foldl_cons]
    exact ih (stepColumn sys c) (rowsLen_step sys B c h)

theorem sysSat_eliminate (x : List Bool) (sys : GSystem) (B : Nat)
    (hlen : RowsLen sys B) :
    SysSat x (gf2_eliminate sys B) ↔ SysSat x sys := by
  rw [gf2_eliminate]
  generalize List.range B = l
  induction l generalizing sys with
  | nil => exact Iff.rfl
  | cons c cs ih =>
    rw [List.foldl_cons]
    exact Iff.trans (ih (stepColumn sys c) (rowsLen_step sys B c hlen))
      (sysSat_step x sys c B hlen)

/-- The press vector of subset `i` as booleans. -/
def bitsVec (i B : Nat) : List Bool := (List.range B).map (fun j => decide (bitOf i j = 1))

theorem bitsVec_length (i B : Nat) : (bitsVec i B).length = B := by
  simp [bitsVec]

theorem bitsVec_getD (i B j : Nat) (h : j < B) :
    (bitsVec i B).getD j false = decide (bitOf i j = 1) :=
  getD_map_range _ B j h false

theorem foldl_xor_init (g : Nat → Bool) :
    ∀ (l : List Nat) (b : Bool),
      l.foldl (fun acc j => Bool.xor acc (g j)) b
        = Bool.xor b (l.foldl (fun acc j => Bool.xor acc (g j)) false) := by
  intro l
  induction l with
  | nil => intro b; cases b <;> rfl
  | cons x xs ih =>
    intro b
    rw [List.foldl_cons, List.foldl_cons, ih (Bool.xor b (g x)),
      ih (Bool.xor false (g x))]
    generalize xs.foldl (fun acc j => Bool.xor acc (g j)) false = F
    cases b <;> cases g x <;> cases F <;> rfl

theorem dotB_eq_foldl :
    ∀ (a x : List Bool), a.length = x.length →
      dotB a x = (List.range x.length).foldl
        (fun acc j => Bool.xor acc (a.getD j false && x.getD j false)) false := by
  intro a
  induction a with
  | nil =>
    intro x h
    rw [List.eq_nil_of_length_eq_zero h.symm]
    rfl
  | cons a as ih =>
    intro x h
    cases x with
    | nil => simp at h
    | cons x xs =>
      rw [dotB_cons, ih xs (by simpa using h)]
      rw [show (x :: xs).length = xs.length + 1 from rfl, List.range_succ_eq_map,
        List.foldl_cons, List.foldl_map]
      simp only [List.getD_cons_zero, List.getD_cons_succ, Bool.false_xor]
      conv_rhs => rw [foldl_xor_init]

theorem natfold_boolfold (i : Nat) (w : Nat → Nat) :
    ∀ (js : List Nat) (a : Nat) (b : Bool), (∀ j ∈ js, w j = 0 ∨ w j = 1) →
      a = (if b then 1 else 0) →
      js.foldl (fun x j => if bitOf i j = 1 then x ^^^ w j else x) a
        = if js.foldl
            (fun xb j => Bool.xor xb (decide (bitOf i j = 1) && decide (w j = 1))) b
          then 1 else 0 := by
  intro js
  induction js with
  | nil => intro a b _ hab; exact hab
  | cons j js ih =>
    intro a b hw hab
    rw [List.foldl_cons, List.foldl_cons]
    apply ih _ _ (fun k hk => hw k (List.mem_cons_of_mem j hk))
    by_cases hp : bitOf i j = 1
    · rw [if_pos hp]
      rcases hw j (List.mem_cons_self j js) with h0 | h1
      · rw [h0, Nat.xor_zero, hab]
        rw [show decide ((0 : Nat) = 1) = false from by decide, Bool.and_false,
          Bool.xor_false]
      · rw [h1, hab, hp]
        rw [show decide ((1 : Nat) = 1) = true from by decide]
        cases b <;> rfl
    · rw [if_neg hp]
      have hdp : decide (bitOf i j = 1) = false := decide_eq_false hp
      rw [hdp, Bool.false_and, Bool.xor_false]
      exact hab

theorem getD_zipWith_gen {α β γ : Type} (f : α → β → γ) (d₁ : α) (d₂ : β) (d₃ : γ) :
    ∀ (as : List α) (bs : List β) (r : Nat), r < as.length → r < bs.length →
      (List.zipWith f as bs).getD r d₃ = f (as.getD r d₁) (bs.getD r d₂) := by
  intro as
  induction as with
  | nil => intro bs r h _; exact absurd h (Nat.not_lt_zero r)
  | cons a as ih =>
    intro bs r h1 h2
    cases bs with
    | nil => exact absurd h2 (Nat.not_lt_zero r)
    | cons b bs =>
      cases r with
      | zero => rfl
      | succ m => exact ih bs m (Nat.lt_of_succ_lt_succ h1) (Nat.lt_of_succ_lt_succ h2)

theorem zipWith_mem_ex {α β γ : Type} (f : α → β → γ) :
    ∀ (as : List α) (bs : List β) (c : γ), c ∈ List.zipWith f as bs →
      ∃ a ∈ as, ∃ b ∈ bs, c = f a b := by
  intro as
  induction as with
  | nil => intro bs c h; exact absurd h (by simp)
  | cons a as ih =>
    intro bs c h
    cases bs with
    | nil => exact absurd h (by simp)
    | cons b bs =>
      rcases List.mem_cons.mp h with h | h
      · exact ⟨a, List.mem_cons_self a as, b, List.mem_cons_self b bs, h⟩
      · rcases ih bs c h with ⟨a', ha, b', hb, heq⟩
        exact ⟨a', List.mem_cons_of_mem a ha, b', List.mem_cons_of_mem b hb, heq⟩

theorem gsys_length (s : Schematic) (hw : WFSchematic s) :
    (gsys s).length = s.lights.length := by
  rw [gsys, List.length_zipWith, hw.1, Nat.min_self]

theorem gsys_getD (s : Schematic) (r : Nat) (h1 : r < s.button_wiring.length)
    (h2 : r < s.lights.length) :
    (gsys s).getD r ([], false)
      = ((s.button_wiring.getD r []).map (fun x => decide (x = 1)),
         decide (s.lights.getD r 0 = 1)) := by
  rw [gsys, getD_zipWith_gen _ [] 0 ([], false) _ _ r h1 h2]

theorem gsys_rowsLen (s : Schematic) (hw : WFSchematic s) :
    RowsLen (gsys s) (n_buttons s) := by
  intro row hrow
  rcases zipWith_mem_ex _ _ _ _ hrow with ⟨wrow, hwrow, l, _, heq⟩
  rw [heq]
  show (wrow.map (fun x => decide (x = 1))).length = n_buttons s
  rw [List.length_map]
  exact hw.2 wrow hwrow

theorem entry_dot_bridge (s : Schematic) (hw : WFSchematic s) (hb : SchematicBits s)
    (i r : Nat) (hr : r < s.lights.length) :
    ((resultingLights s i).getD r 0 = s.lights.getD r 0) ↔
      (dotB ((gsys s).getD r ([], false)).1 (bitsVec i (n_buttons s))
        = ((gsys s).getD r ([], false)).2) := by
  have hwr : r < s.button_wiring.length := by rw [hw.1]; exact hr
  have hrowmem := getD_mem_rows s.button_wiring r hwr
  have hrowlen : (s.button_wiring.getD r []).length = n_buttons s := hw.2 _ hrowmem
  have hentry := resultingLights_getD s hw i r hr
  have h01 : ∀ j ∈ List.range (n_buttons s),
      (s.button_wiring.getD r []).getD j 0 = 0 ∨
      (s.button_wiring.getD r []).getD j 0 = 1 := by
    intro j hj
    have hjl : j < (s.button_wiring.getD r []).length := by
      rw [hrowlen]; exact List.mem_range.mp hj
    exact hb.2 _ hrowmem _ (getD_mem _ j hjl)
  have hnat := natfold_boolfold i (fun j => (s.button_wiring.getD r []).getD j 0)
    (List.range (n_buttons s)) 0 false h01 rfl
  rw [hentry, hnat]
  rw [gsys_getD s r hwr hr]
  have hdot : dotB ((s.button_wiring.getD r []).map (fun x => decide (x = 1)))
      (bitsVec i (n_buttons s))
      = (List.range (n_buttons s)).foldl
          (fun xb j => Bool.xor xb (decide (bitOf i j = 1) &&
            decide ((s.button_wiring.getD r []).getD j 0 = 1))) false := by
    rw [dotB_eq_foldl _ _ (by rw [List.length_map, hrowlen, bitsVec_length])]
    rw [bitsVec_length]
    apply foldl_congr_mem
    intro j hj x
    have hjB : j < n_buttons s := List.mem_range.mp hj
    rw [getD_map (fun x => decide (x = 1)) _ 0 false j (by rw [hrowlen]; exact hjB)]
    rw [bitsVec_getD i _ j hjB]
    rw [Bool.and_comm]
  rw [hdot]
  rcases hb.1 _ (getD_mem s.lights r hr) with hl | hl
  · rw [hl, show decide ((0 : Nat) = 1) = false from by decide]
    generalize (List.range (n_buttons s)).foldl
      (fun xb j => Bool.xor xb (decide (bitOf i j = 1) &&
        decide ((s.button_wiring.getD r []).getD j 0 = 1))) false = D
    cases D <;> simp
  · rw [hl, show decide ((1 : Nat) = 1) = true from by decide]
    generalize (List.range (n_buttons s)).foldl
      (fun xb j => Bool.xor xb (decide (bitOf i j = 1) &&
        decide ((s.button_wiring.getD r []).getD j 0 = 1))) false = D
    cases D <;> simp

theorem match_iff_sysSat (s : Schematic) (hw : WFSchematic s) (hb : SchematicBits s)
    (i : Nat) :
    resultingLights s i = s.lights ↔ SysSat (bitsVec i (n_buttons s)) (gsys s) := by
  have hrl := resultingLights_length s hw i
  have hgl := gsys_length s hw
  constructor
  · intro hm r hr'
    have hr : r < s.lights.length := by rw [hgl] at hr'; exact hr'
    exact (entry_dot_bridge s hw hb i r hr).mp (by rw [hm])
  · intro hs
    apply List.ext_getElem (by rw [hrl])
    intro r h1 h2
    rw [← List.getD_eq_getElem _ 0 h1, ← List.getD_eq_getElem _ 0 h2]
    exact (entry_dot_bridge s hw hb i r h2).mpr (hs r (by rw [hgl]; exact h2))

/-- The decidable check that elimination produced a (padded) identity: every
row below `B` is a unit row for its own column and every later row is zero —
i.e. every column received a pivot. -/
def fullPivot (sys : GSystem) (B : Nat) : Bool :=
  (List.range sys.length).all (fun r =>
    if r < B then (sys.getD r ([], false)).1 == unitVec B r
    else rowIsZero (sys.getD r ([], false)))

theorem fullPivot_spec (sys : GSystem) (B : Nat) (h : fullPivot sys B = true) :
    (∀ r, r < sys.length → r < B → (sys.getD r ([], false)).1 = unitVec B r) ∧
    (∀ r, r < sys.length → B ≤ r → rowIsZero (sys.getD r ([], false)) = true) := by
  rw [fullPivot, List.all_eq_true] at h
  constructor
  · intro r hr hrB
    have h1 := h r (List.mem_range.mpr hr)
    rw [if_pos hrB] at h1
    exact eq_of_beq h1
  · intro r hr hrB
    have h1 := h r (List.mem_range.mpr hr)
    rw [if_neg (by omega)] at h1
    exact h1

theorem rowIsZero_all_false (row : GRow) (h : rowIsZero row = true) :
    ∀ b ∈ row.1, b = false := by
  rw [rowIsZero, List.all_eq_true] at h
  intro b hb
  simpa using h b hb

theorem gf2_solve_ok (s : Schematic) (n : Nat)
    (h : GF2LinearSolver_solve s = Except.ok n) :
    (gf2_eliminate (gsys s) (n_buttons s)).any
        (fun row => rowIsZero row && row.2) = false ∧
    n = ((gf2_eliminate (gsys s) (n_buttons s)).filter (fun row => row.2)).length := by
  rw [GF2LinearSolver_solve] at h
  by_cases hany : (gf2_eliminate (gsys s) (n_buttons s)).any
      (fun row => rowIsZero row && row.2) = true
  · rw [if_pos hany] at h
    exact absurd h (by simp)
  · have hfalse : (gf2_eliminate (gsys s) (n_buttons s)).any
        (fun row => rowIsZero row && row.2) = false := Bool.eq_false_iff.mpr hany
    rw [if_neg hany] at h
    refine ⟨hfalse, ?_⟩
    have := Except.ok.inj h
    exact this.symm

theorem filter_length_eq_sum_ind {α : Type} (p : α → Bool) (d : α) :
    ∀ l : List α, (l.filter p).length
      = ((List.range l.length).map (fun r => if p (l.getD r d) then 1 else 0)).sum := by
  intro l
  induction l with
  | nil => rfl
  | cons x xs ih =>
    rw [show (x :: xs).length = xs.length + 1 from rfl, List.range_succ_eq_map,
      List.map_cons, List.map_map, List.sum_cons]
    have hcomp : ((fun r => if p ((x :: xs).getD r d) then 1 else 0) ∘ Nat.succ)
        = (fun r => if p (xs.getD r d) then 1 else 0) := by
      funext r
      rfl
    rw [hcomp, ← ih]
    cases hp : p x with
    | true =>
      rw [List.filter_cons_of_pos hp, List.getD_cons_zero, hp, if_pos rfl,
        List.length_cons, Nat.add_comm]
    | false =>
      rw [List.filter_cons_of_neg (by rw [hp]; exact Bool.false_ne_true),
        List.getD_cons_zero, hp]
      simp

theorem sum_range_zero_tail (g : Nat → Nat) :
    ∀ (X Y : Nat), Y ≤ X → (∀ r, Y ≤ r → g r = 0) →
      ((List.range X).map g).sum = ((List.range Y).map g).sum := by
  intro X
  induction X with
  | zero =>
    intro Y hY _
    rw [Nat.le_zero.mp hY]
  | succ X ih =>
    intro Y hY hz
    by_cases hYX : Y = X + 1
    · rw [hYX]
    · have hYle : Y ≤ X := by omega
      rw [List.range_succ, List.map_append, List.sum_append, ih Y hYle hz]
      simp [hz X hYle]

/-- The subset index whose press bits below `B` are given by `f`. -/
def selSum (f : Nat → Bool) (B : Nat) : Nat :=
  ((List.range B).map (fun r => if f r then 2 ^ r else 0)).sum

theorem selSum_succ (f : Nat → Bool) (B : Nat) :
    selSum f (B + 1) = selSum f B + (if f B then 2 ^ B else 0) := by
  rw [selSum, selSum, List.range_succ, List.map_append, List.sum_append]
  simp

theorem selSum_lt (f : Nat → Bool) : ∀ B, selSum f B < 2 ^ B := by
  intro B
  induction B with
  | zero => exact Nat.lt_of_lt_of_le Nat.zero_lt_one (by rw [Nat.pow_zero])
  | succ B ih =>
    rw [selSum_succ]
    have h2 : (2 : Nat) ^ (B + 1) = 2 ^ B + 2 ^ B := by
      rw [Nat.pow_succ]
      omega
    cases hf : f B
    · rw [if_neg Bool.false_ne_true]
      omega
    · rw [if_pos rfl]
      omega

theorem bitOf_eq_zero_of_lt (S j : Nat) (h : S < 2 ^ j) : bitOf S j = 0 := by
  rw [bitOf_eq_mod, Nat.div_eq_of_lt h]

theorem bitOf_add_pow_lt (S B j : Nat) (hj : j < B) :
    bitOf (S + 2 ^ B) j = bitOf S j := by
  rw [bitOf_eq_mod, bitOf_eq_mod]
  have h1 : (2 : Nat) ^ B = 2 ^ j * 2 ^ (B - j) := by
    rw [← Nat.pow_add]
    congr 1
    omega
  rw [h1, Nat.add_mul_div_left _ _ (Nat.pos_pow_of_pos j (by omega))]
  have h2 : B - j = (B - j - 1) + 1 := by omega
  have h3 : (2 : Nat) ^ (B - j) = 2 ^ (B - j - 1) * 2 := by
    conv_lhs => rw [h2]
    rw [Nat.pow_succ]
  rw [h3]
  omega

theorem bitOf_add_pow_self (S B : Nat) (h : S < 2 ^ B) :
    bitOf (S + 2 ^ B) B = 1 := by
  rw [bitOf_eq_mod]
  have h1 : (S + 2 ^ B) / 2 ^ B = S / 2 ^ B + 1 :=
    Nat.add_div_right S (Nat.pos_pow_of_pos B (by omega))
  rw [h1, Nat.div_eq_of_lt h]

theorem bitOf_selSum (f : Nat → Bool) :
    ∀ (B j : Nat), bitOf (selSum f B) j = if j < B ∧ f j = true then 1 else 0 := by
  intro B
  induction B with
  | zero =>
    intro j
    rw [show selSum f 0 = 0 from rfl, bitOf_zero]
    simp
  | succ B ih =>
    intro j
    rcases Nat.lt_trichotomy j B with hj | hj | hj
    · rw [selSum_succ]
      cases hf : f B
      · rw [if_neg Bool.false_ne_true, Nat.add_zero, ih j]
        by_cases hfj : f j = true
        · rw [if_pos ⟨hj, hfj⟩, if_pos ⟨Nat.lt_succ_of_lt hj, hfj⟩]
        · rw [if_neg (fun hc => hfj hc.2), if_neg (fun hc => hfj hc.2)]
      · rw [if_pos rfl, bitOf_add_pow_lt _ B j hj, ih j]
        by_cases hfj : f j = true
        · rw [if_pos ⟨hj, hfj⟩, if_pos ⟨Nat.lt_succ_of_lt hj, hfj⟩]
        · rw [if_neg (fun hc => hfj hc.2), if_neg (fun hc => hfj hc.2)]
    · subst hj
      rw [selSum_succ]
      cases hf : f j
      · rw [if_neg Bool.false_ne_true, Nat.add_zero,
          bitOf_eq_zero_of_lt _ _ (selSum_lt f j)]
        rw [if_neg (fun hc => Bool.false_ne_true hc.2)]
      · rw [if_pos rfl, bitOf_add_pow_self _ _ (selSum_lt f j)]
        rw [if_pos ⟨Nat.lt_succ_self j, rfl⟩]
    · have hlt : selSum f (B + 1) < 2 ^ j :=
        Nat.lt_of_lt_of_le (selSum_lt f (B + 1)) (Nat.pow_le_pow_right (by omega) hj)
      rw [bitOf_eq_zero_of_lt _ _ hlt, if_neg (fun hc => by omega)]

theorem pressWeight_selSum (f : Nat → Bool) (B : Nat) :
    pressWeight (selSum f B) B
      = ((List.range B).map (fun r => if f r = true then 1 else 0)).sum := by
  rw [pressWeight, pressList]
  congr 1
  apply List.map_congr_left
  intro j hj
  rw [bitOf_selSum f B j, if_congr (Iff.intro (fun hc => hc.2)
    (fun hf => ⟨List.mem_range.mp hj, hf⟩)) rfl rfl]

/-- The press bit the reduced system forces for column `r`: the target bit of
row `r` when that row exists, else 0. -/
def targetBit (F : GSystem) (r : Nat) : Bool :=
  decide (r < F.length) && (F.getD r ([], false)).2

/-- Indicator of a forced press. -/
def targetInd (F : GSystem) (r : Nat) : Nat :=
  if r < F.length ∧ (F.getD r ([], false)).2 = true then 1 else 0

/-- C9 (amended): on every well-formed bit-valued schematic on which the
elimination gives every column a pivot — the reduced wiring matrix is a
padded identity, checked by `fullPivot` — and reports a consistent system,
the modelled GF2 elimination solver and the exhaustive search agree on the
minimum press count. -/
theorem C9_gf2_agreement (s : Schematic)
    (hw : WFSchematic s) (hb : SchematicBits s) (hB : n_buttons s < 100000)
    (hfp : fullPivot (gf2_eliminate (gsys s) (n_buttons s)) (n_buttons s) = true)
    (n : Nat) (hok : GF2LinearSolver_solve s = Except.ok n) :
    brute_force_solver s = (n : Int) := by
  set B := n_buttons s with hBdef
  set F := gf2_eliminate (gsys s) B with hFdef
  have hRLg : RowsLen (gsys s) B := gsys_rowsLen s hw
  have hRLF : RowsLen F B := rowsLen_eliminate (gsys s) B hRLg
  have hps := fullPivot_spec F B hfp
  have hsolve := gf2_solve_ok s n hok
  have hcons : ∀ row ∈ F, ¬ (rowIsZero row && row.2) = true :=
    List.any_eq_false.mp hsolve.1
  have htfalse : ∀ r, r < F.length → B ≤ r → (F.getD r ([], false)).2 = false := by
    intro r hr hBr
    have hz := hps.2 r hr hBr
    have h1 := hcons _ (getD_mem_any F ([], false) r hr)
    rw [hz, Bool.true_and] at h1
    exact Bool.eq_false_iff.mpr h1
  have hchar : ∀ i, (resultingLights s i = s.lights) ↔
      (∀ r, r < F.length → r < B →
        (bitsVec i B).getD r false = (F.getD r ([], false)).2) := by
    intro i
    rw [match_iff_sysSat s hw hb i]
    rw [Iff.symm (sysSat_eliminate (bitsVec i B) (gsys s) B hRLg)]
    constructor
    · intro hs r hr hrB
      have h1 := hs r hr
      rw [hps.1 r hr hrB,
        show unitVec B r = unitVec (bitsVec i B).length r by rw [bitsVec_length],
        dotB_unitVec r (bitsVec i B) (by rw [bitsVec_length]; exact hrB)] at h1
      exact h1
    · intro hx r hr
      by_cases hrB : r < B
      · rw [hps.1 r hr hrB,
          show unitVec B r = unitVec (bitsVec i B).length r by rw [bitsVec_length],
          dotB_unitVec r (bitsVec i B) (by rw [bitsVec_length]; exact hrB)]
        exact hx r hr hrB
      · rw [dotB_all_false _ _ (rowIsZero_all_false _ (hps.2 r hr (by omega)))]
        exact (htfalse r hr (by omega)).symm
  have hcharStar : resultingLights s (selSum (targetBit F) B) = s.lights := by
    rw [hchar (selSum (targetBit F) B)]
    intro r hr hrB
    rw [bitsVec_getD _ B r hrB, bitOf_selSum (targetBit F) B r]
    have hfr : targetBit F r = (F.getD r ([], false)).2 := by
      rw [targetBit, decide_eq_true hr, Bool.true_and]
    cases ht : (F.getD r ([], false)).2
    · rw [if_neg (fun hc => by
        rw [hfr, ht] at hc
        exact Bool.false_ne_true hc.2)]
      decide
    · rw [if_pos ⟨hrB, by rw [hfr, ht]⟩]
      decide
  have hweightStar : pressWeight (selSum (targetBit F) B) B
      = ((List.range B).map (fun r => if targetBit F r = true then 1 else 0)).sum :=
    pressWeight_selSum (targetBit F) B
  have hn : n = ((List.range B).map (fun r => if targetBit F r = true then 1 else 0)).sum := by
    rw [hsolve.2]
    rw [filter_length_eq_sum_ind (fun row => row.2) ([], false) F]
    have hLeft : ((List.range F.length).map
          (fun r => if (F.getD r ([], false)).2 = true then 1 else 0)).sum
        = ((List.range F.length).map (targetInd F)).sum := by
      congr 1
      apply List.map_congr_left
      intro r hr
      rw [targetInd]
      by_cases ht : (F.getD r ([], false)).2 = true
      · rw [if_pos ht, if_pos ⟨List.mem_range.mp hr, ht⟩]
      · rw [if_neg ht, if_neg (fun hc => ht hc.2)]
    have hMF : ((List.range (max F.length B)).map (targetInd F)).sum
        = ((List.range F.length).map (targetInd F)).sum :=
      sum_range_zero_tail (targetInd F) (max F.length B) F.length
        (Nat.le_max_left _ _)
        (fun r hr => by rw [targetInd]; exact if_neg (fun hc => absurd hc.1 (by omega)))
    have hMB : ((List.range (max F.length B)).map (targetInd F)).sum
        = ((List.range B).map (targetInd F)).sum :=
      sum_range_zero_tail (targetInd F) (max F.length B) B (Nat.le_max_right _ _)
        (fun r hr => by
          rw [targetInd]
          apply if_neg
          rintro ⟨hc1, hc2⟩
          rw [htfalse r hc1 hr] at hc2
          exact Bool.false_ne_true hc2)
    have hRight : ((List.range B).map
          (fun r => if targetBit F r = true then 1 else 0)).sum
        = ((List.range B).map (targetInd F)).sum := by
      congr 1
      apply List.map_congr_left
      intro r _
      rw [targetBit, targetInd]
      by_cases h1 : r < F.length
      · rw [decide_eq_true h1, Bool.true_and]
        by_cases h2 : (F.getD r ([], false)).2 = true
        · rw [if_pos h2, if_pos ⟨h1, h2⟩]
        · rw [if_neg h2, if_neg (fun hc => h2 hc.2)]
      · rw [decide_eq_false h1, Bool.false_and]
        rw [if_neg Bool.false_ne_true, if_neg (fun hc => h1 hc.1)]
    rw [hLeft, ← hMF, hMB, ← hRight]
  have hge : ∀ k, resultingLights s k = s.lights →
      pressWeight (selSum (targetBit F) B) B ≤ pressWeight k B := by
    intro k hk
    rw [hweightStar, pressWeight, pressList]
    apply List.sum_le_sum
    intro j hj
    by_cases hfj : targetBit F j = true
    · rw [if_pos hfj]
      have hfj2 : j < F.length ∧ (F.getD j ([], false)).2 = true := by
        rw [targetBit] at hfj
        simpa using hfj
      have hjB : j < B := List.mem_range.mp hj
      have hx := (hchar k).mp hk j hfj2.1 hjB
      rw [bitsVec_getD k B j hjB, hfj2.2] at hx
      rw [of_decide_eq_true hx]
    · rw [if_neg hfj]
      exact Nat.zero_le _
  obtain ⟨j, hj1, hj2, hj3, hj4⟩ :=
    brute_force_min s hB ⟨selSum (targetBit F) B, selSum_lt (targetBit F) B, hcharStar⟩
  have hle1 : pressWeight j B ≤ pressWeight (selSum (targetBit F) B) B :=
    hj4 (selSum (targetBit F) B) (selSum_lt (targetBit F) B) hcharStar
  have hle2 : pressWeight (selSum (targetBit F) B) B ≤ pressWeight j B := hge j hj2
  rw [hj3, Nat.le_antisymm hle1 hle2, hweightStar, ← hn]

/-- C9 witness: on spec Example 1 (independent buttons, full-pivot
elimination) both solvers report 1. -/
theorem C9_witness : brute_force_solver sExample1 = (1 : Int) :=
  C9_gf2_agreement sExample1 (by decide) (by decide) (by decide) (by decide) 1 (by decide)
